import Mathlib

/-!
Verification development for the `binarytree` Python library
(`src/binarytree/__init__.py`), under the library's default configuration:
node class `Node`, sentinel `_null = None`, attributes `value`/`left`/`right`.

Trees built by the library (from flat lists or by the generators) always carry
integer values and have children that are either `Node` instances or the
sentinel, so they are modelled by the inductive type `BTree` below.  Flat
sequences are modelled as `List (Option Int)` with `none` as the sentinel.
Fallible operations return `Except String _`, the string being the message of
the Python exception raised.

The validator `_validate_tree` walks objects that need not be well typed
(a child may be any object, a value may be the sentinel); it is modelled
separately over `PyObj`, which adds those degenerate shapes.
-/

set_option maxHeartbeats 1000000

namespace BinaryTree

/-- A binary tree node (class `Node`): an integer `value` plus `left`/`right`
children, with `nil` standing for the sentinel `None`. -/
inductive BTree where
  | nil : BTree
  | node (value : Int) (left right : BTree) : BTree
deriving DecidableEq, Repr

namespace BTree

/-- `getattr(node, 'value')` as an `Option`: `none` on the sentinel. -/
def topVal : BTree → Option Int
  | .nil => none
  | .node v _ _ => some v

/-- `getattr(node, 'left')`, with the sentinel mapped to itself. -/
def leftOf : BTree → BTree
  | .nil => .nil
  | .node _ l _ => l

/-- `getattr(node, 'right')`, with the sentinel mapped to itself. -/
def rightOf : BTree → BTree
  | .nil => .nil
  | .node _ _ r => r

/-- Number of nodes of a tree (used only as a termination measure). -/
def tsize : BTree → Nat
  | .nil => 0
  | .node _ l r => 1 + tsize l + tsize r

/-- Height of a tree: edges on the longest root-to-leaf path, `-1` for the
sentinel (the convention the library's inspector reports). -/
def theight : BTree → Int
  | .nil => -1
  | .node _ l r => 1 + max (theight l) (theight r)

/-- Values stored in a tree (preorder; used only for specifications). -/
def tvals : BTree → List Int
  | .nil => []
  | .node v l r => v :: (tvals l ++ tvals r)

theorem theight_ge_neg_one (t : BTree) : -1 ≤ theight t := by
  induction t with
  | nil => simp [theight]
  | node v l r ihl ihr =>
    have := le_max_left (theight l) (theight r)
    simp only [theight]
    omega

theorem theight_nonneg {v : Int} {l r : BTree} : 0 ≤ theight (.node v l r) := by
  have hl := theight_ge_neg_one l
  have := le_max_left (theight l) (theight r)
  simp only [theight]
  omega

end BTree

open BTree

/-! ### `_is_balanced` -/

/-- `_is_balanced(node)`: return depth if balanced else -1. -/
def _is_balanced : BTree → Int
  | .nil => 0
  | .node _ l r =>
    let lb := _is_balanced l
    let rb := _is_balanced r
    if lb < 0 ∨ rb < 0 ∨ 1 < |lb - rb| then -1 else max lb rb + 1

/-! ### `_build_tree` (fromFlatSequence)

The Python function allocates a `nodes` array, creates a node for every
non-sentinel entry of `values`, and mutates the parent node's `left`/`right`
attribute (`index` odd / even).  A node at index `i` therefore receives its
left child from index `2*i+1` and its right child from index `2*i+2`, and on
success the resulting tree has a node at exactly the non-sentinel positions of
`values`; `subtreeAt values 0` below is that tree.  The only other use of the
`nodes` array is the test `nodes[parent_index] == _null`, which `buildLoop`
reproduces with a `Bool` array recording which positions received a node. -/

/-- Parent position of flat-sequence position `i`:
`int((index + 1) / 2) - 1` in the source. -/
def parentIdx (i : Nat) : Nat := (i + 1) / 2 - 1

/-- The tree whose root sits at position `i` of the flat sequence `vs`
(children at positions `2*i+1` and `2*i+2`). -/
def subtreeAt (vs : List (Option Int)) (i : Nat) : BTree :=
  match h : vs.getD i none with
  | none => .nil
  | some x => .node x (subtreeAt vs (2*i+1)) (subtreeAt vs (2*i+2))
termination_by vs.length - i
decreasing_by
  · have hi : i < vs.length := by
      by_contra hcon
      rw [vs.getD_eq_default none (by omega)] at h
      exact Option.noConfusion h
    omega
  · have hi : i < vs.length := by
      by_contra hcon
      rw [vs.getD_eq_default none (by omega)] at h
      exact Option.noConfusion h
    omega

/-- The `while index < len(values)` loop of `_build_tree`: `nodes.getD j false`
is `true` exactly when a node has been created at position `j`.  Raises
(`ValueError`) when a non-sentinel entry's parent position holds no node. -/
def buildLoop (vs : List (Option Int)) (index : Nat) (nodes : List Bool) :
    Except String (List Bool) :=
  if h : index < vs.length then
    match vs.getD index none with
    | none => buildLoop vs (index + 1) nodes
    | some _ =>
      if nodes.getD (parentIdx index) false = false then
        .error ("Node missing at index " ++ toString (parentIdx index))
      else
        buildLoop vs (index + 1) (nodes.set index true)
  else
    .ok nodes
termination_by vs.length - index

/-- `_build_tree(values)`: build a tree from a list of values.  Empty input
yields the sentinel; a sentinel at position 0 of a non-empty input, or any
orphan position, raises `ValueError`. -/
def _build_tree (vs : List (Option Int)) : Except String BTree :=
  match vs with
  | [] => .ok .nil
  | v0 :: _ =>
    match v0 with
    | none => .error "Node missing at index 0"
    | some _ =>
      match buildLoop vs 1 (((List.replicate vs.length false).set 0 true)) with
      | .error e => .error e
      | .ok _ => .ok (subtreeAt vs 0)

/-! ### `_build_list` (toFlatSequence) -/

/-- One entry of the result per slot of the current level: the node's value,
or the sentinel for an absent node. -/
def levelVals (ns : List BTree) : List (Option Int) := ns.map topVal

/-- The `next_nodes` slots of one node: the sentinel contributes two sentinel
slots, a node contributes its two children. -/
def childSlots : BTree → List BTree
  | .nil => [.nil, .nil]
  | .node _ l r => [l, r]

/-- All slots of the next level. -/
def nextSlots (ns : List BTree) : List BTree := ns.flatMap childSlots

/-- Whether a slot holds a node with at least one non-sentinel child
(this is what sets `level_not_empty` in the source). -/
def slotHasChild : BTree → Bool
  | .nil => false
  | .node _ l r => decide (l ≠ .nil) || decide (r ≠ .nil)

/-- `level_not_empty` after scanning the current level. -/
def levelNotEmpty (ns : List BTree) : Bool := ns.any slotHasChild

/-- Whether an object in a level slot is a real node (not the sentinel). -/
def isRealNode : BTree → Bool
  | .nil => false
  | .node _ _ _ => true

/-- Sum of node counts over a level (termination measure). -/
def sumSizes (ns : List BTree) : Nat := (ns.map tsize).sum

theorem sumSizes_append (a b : List BTree) :
    sumSizes (a ++ b) = sumSizes a + sumSizes b := by
  simp [sumSizes]

theorem sumSizes_cons (t : BTree) (ts : List BTree) :
    sumSizes (t :: ts) = tsize t + sumSizes ts := by
  simp [sumSizes]

theorem nextSlots_cons (t : BTree) (ts : List BTree) :
    nextSlots (t :: ts) = childSlots t ++ nextSlots ts := by
  simp [nextSlots]

theorem sumSizes_nextSlots (ns : List BTree) :
    sumSizes (nextSlots ns) + ns.countP isRealNode = sumSizes ns := by
  induction ns with
  | nil => rfl
  | cons t ts ih =>
    rw [nextSlots_cons, sumSizes_append, List.countP_cons, sumSizes_cons]
    cases t with
    | nil =>
      have h1 : sumSizes (childSlots .nil) = 0 := by simp [childSlots, sumSizes, tsize]
      simp [h1, isRealNode, tsize]
      omega
    | node v l r =>
      have h1 : sumSizes (childSlots (.node v l r)) = tsize l + tsize r := by
        simp [childSlots, sumSizes]
      simp [h1, isRealNode, tsize]
      omega

theorem sumSizes_lt_of_levelNotEmpty {ns : List BTree} (h : levelNotEmpty ns = true) :
    sumSizes (nextSlots ns) < sumSizes ns := by
  have hcount : 1 ≤ ns.countP isRealNode := by
    rw [levelNotEmpty, List.any_eq_true] at h
    obtain ⟨t, ht, hc⟩ := h
    have htn : isRealNode t = true := by
      cases t with
      | nil => simp [slotHasChild] at hc
      | node v l r => rfl
    calc 1 = [t].countP isRealNode := by simp [htn]
    _ ≤ ns.countP isRealNode := by
        apply List.Sublist.countP_le
        simpa using ht
  have := sumSizes_nextSlots ns
  omega

/-- The `while level_not_empty` loop of `_build_list`: emit the values of the
current level, then continue with the next level while some node of the
current level has a child. -/
def bfsLevels (ns : List BTree) : List (Option Int) :=
  levelVals ns ++ (if h : levelNotEmpty ns = true then bfsLevels (nextSlots ns) else [])
termination_by sumSizes ns
decreasing_by exact sumSizes_lt_of_levelNotEmpty h

/-- The trailing `while result and result[-1] == _null: result.pop()` loop. -/
def dropTrailingNulls (l : List (Option Int)) : List (Option Int) :=
  (l.reverse.dropWhile Option.isNone).reverse

/-- `_build_list(root)`: build a list of values from a tree. -/
def _build_list (root : BTree) : List (Option Int) :=
  dropTrailingNulls (bfsLevels [root])

/-! ### Positional view of a tree

`posTree t i` is the subtree of `t` rooted at flat-sequence position `i`
(root at 0, children of `i` at `2*i+1` and `2*i+2`); it is the common
abstraction connecting `_build_tree` and `_build_list`. -/

/-- Subtree of `t` at flat-sequence position `i` (the sentinel when the
position is below a sentinel or absent). -/
def posTree (t : BTree) (i : Nat) : BTree :=
  match i with
  | 0 => t
  | j + 1 =>
    match posTree t (j / 2) with
    | .nil => .nil
    | .node _ l r => if (j + 1) % 2 = 1 then l else r
termination_by i
decreasing_by omega

/-- Value stored at position `i` of `t` (`none` when no node is there). -/
def valAt (t : BTree) (i : Nat) : Option Int := topVal (posTree t i)

theorem posTree_zero (t : BTree) : posTree t 0 = t := by
  rw [posTree]

theorem posTree_left (t : BTree) (i : Nat) :
    posTree t (2*i+1) = leftOf (posTree t i) := by
  rw [posTree]
  have h1 : 2*i/2 = i := by omega
  have h2 : (2*i+1) % 2 = 1 := by omega
  rw [h1, h2]
  cases posTree t i <;> simp [leftOf]

theorem posTree_right (t : BTree) (i : Nat) :
    posTree t (2*i+2) = rightOf (posTree t i) := by
  have h0 : 2*i+2 = (2*i+1) + 1 := by omega
  rw [h0, posTree]
  have h1 : (2*i+1)/2 = i := by omega
  have h2 : (2*i+1+1) % 2 = 0 := by omega
  rw [h1, h2]
  cases posTree t i <;> simp [rightOf]

theorem posTree_nil (i : Nat) : posTree .nil i = .nil := by
  induction i using Nat.strong_induction_on with
  | _ i ih =>
    match i with
    | 0 => rw [posTree]
    | j + 1 =>
      rw [posTree, ih (j / 2) (by omega)]

theorem posTree_child_nil {t : BTree} {i : Nat} (h : posTree t i = .nil) :
    posTree t (2*i+1) = .nil ∧ posTree t (2*i+2) = .nil := by
  rw [posTree_left, posTree_right, h]
  exact ⟨rfl, rfl⟩

/-- Positions of level `k` of the flat enumeration:
`2^k - 1, …, 2^(k+1) - 2`. -/
def lvlIdx (k : Nat) : List Nat := List.range' (2^k - 1) (2^k)

theorem mem_lvlIdx {k i : Nat} :
    i ∈ lvlIdx k ↔ 2^k - 1 ≤ i ∧ i < 2^(k+1) - 1 := by
  have h1 : 1 ≤ 2^k := Nat.one_le_two_pow
  have h2 : 2^(k+1) = 2^k + 2^k := by rw [pow_succ]; omega
  rw [lvlIdx, List.mem_range'_1]
  omega

/-- Each position `i ≥ 1` belongs to level `Nat.log 2 (i+1)`. -/
theorem mem_lvlIdx_log (i : Nat) : i ∈ lvlIdx (Nat.log 2 (i+1)) := by
  have h1 : 2 ^ Nat.log 2 (i+1) ≤ i+1 :=
    Nat.pow_log_le_self 2 (by omega)
  have h2 : i+1 < 2 ^ (Nat.log 2 (i+1) + 1) :=
    Nat.lt_pow_succ_log_self (by omega) (i+1)
  rw [mem_lvlIdx]
  omega

/-- The subtree at a position embeds into the children: position `i + 2^k` of
`node v l r` is position `i` of `l`, and `i + 2^(k+1)` is position `i` of `r`,
for `i` on level `k`. -/
theorem posTree_embed (v : Int) (l r : BTree) :
    ∀ k i, 2^k - 1 ≤ i → i < 2^(k+1) - 1 →
      posTree (.node v l r) (i + 2^k) = posTree l i ∧
      posTree (.node v l r) (i + 2^(k+1)) = posTree r i := by
  intro k
  induction k with
  | zero =>
    intro i h1 h2
    have hi : i = 0 := by simpa using h2
    subst hi
    constructor
    · have h : (0:Nat) + 2^0 = 2*0+1 := by norm_num
      rw [h, posTree_left]
      simp [posTree_zero, leftOf]
    · have h : (0:Nat) + 2^(0+1) = 2*0+2 := by norm_num
      rw [h, posTree_right]
      simp [posTree_zero, rightOf]
  | succ k ih =>
    intro i h1 h2
    have hp2 : 2^(k+1) = 2^k + 2^k := by rw [pow_succ]; omega
    have hp3 : 2^(k+2) = 2^(k+1) + 2^(k+1) := by rw [pow_succ 2 (k+1)]; omega
    have h1pow : 1 ≤ 2^k := Nat.one_le_two_pow
    -- the parent position of `i` lies on level `k`
    have hpar1 : 2^k - 1 ≤ (i-1)/2 := by omega
    have hpar2 : (i-1)/2 < 2^(k+1) - 1 := by omega
    obtain ⟨ihl, ihr⟩ := ih ((i-1)/2) hpar1 hpar2
    have hodd : ∀ m : Nat, 1 ≤ m → m = 2*((m-1)/2) + 1 ∨ m = 2*((m-1)/2) + 2 := by
      intro m hm; omega
    have hil : 1 ≤ i := by omega
    constructor
    · -- left embedding at level k+1
      have harg : (i + 2^(k+1) - 1) / 2 = (i-1)/2 + 2^k := by omega
      rcases hodd i hil with hcase | hcase
      · have : i + 2^(k+1) = 2*((i-1)/2 + 2^k) + 1 := by omega
        rw [this, posTree_left, ihl]
        conv_rhs => rw [hcase]
        rw [posTree_left]
      · have : i + 2^(k+1) = 2*((i-1)/2 + 2^k) + 2 := by omega
        rw [this, posTree_right, ihl]
        conv_rhs => rw [hcase]
        rw [posTree_right]
    · -- right embedding at level k+1
      rcases hodd i hil with hcase | hcase
      · have : i + 2^(k+1+1) = 2*((i-1)/2 + 2^(k+1)) + 1 := by omega
        rw [this, posTree_left, ihr]
        conv_rhs => rw [hcase]
        rw [posTree_left]
      · have : i + 2^(k+1+1) = 2*((i-1)/2 + 2^(k+1)) + 2 := by omega
        rw [this, posTree_right, ihr]
        conv_rhs => rw [hcase]
        rw [posTree_right]

/-- A tree has a node somewhere on level `k` exactly when its height is at
least `k`. -/
theorem exists_on_level_iff (t : BTree) :
    ∀ k, (∃ i ∈ lvlIdx k, posTree t i ≠ .nil) ↔ (k : Int) ≤ theight t := by
  induction t with
  | nil =>
    intro k
    constructor
    · rintro ⟨i, _, hne⟩
      exact absurd (posTree_nil i) hne
    · intro h
      exfalso
      have : (0:Int) ≤ theight BTree.nil := le_trans (by positivity) h
      simp [theight] at this
  | node v l r ihl ihr =>
    intro k
    cases k with
    | zero =>
      constructor
      · intro _
        exact theight_nonneg
      · intro _
        refine ⟨0, ?_, ?_⟩
        · rw [mem_lvlIdx]
          norm_num
        · rw [posTree_zero]
          exact fun hcon => BTree.noConfusion hcon
    | succ k =>
      have h1pow : 1 ≤ 2^k := Nat.one_le_two_pow
      have hp2 : 2^(k+1) = 2^k + 2^k := by rw [pow_succ]; omega
      have hp3 : 2^(k+2) = 2^(k+1) + 2^(k+1) := by rw [pow_succ 2 (k+1)]; omega
      constructor
      · rintro ⟨i, hmem, hne⟩
        rw [mem_lvlIdx] at hmem
        -- split `i` into the left-half or right-half embedding
        have hcase : (∃ j, 2^k - 1 ≤ j ∧ j < 2^(k+1) - 1 ∧ i = j + 2^k) ∨
                     (∃ j, 2^k - 1 ≤ j ∧ j < 2^(k+1) - 1 ∧ i = j + 2^(k+1)) := by
          by_cases hsplit : i < 2^(k+1) - 1 + 2^k
          · exact Or.inl ⟨i - 2^k, by omega, by omega, by omega⟩
          · exact Or.inr ⟨i - 2^(k+1), by omega, by omega, by omega⟩
        have hmax := le_max_left (theight l) (theight r)
        have hmax2 := le_max_right (theight l) (theight r)
        rcases hcase with ⟨j, hj1, hj2, hje⟩ | ⟨j, hj1, hj2, hje⟩
        · have := (posTree_embed v l r k j hj1 hj2).1
          rw [hje, this] at hne
          have : (k:Int) ≤ theight l := (ihl k).mp ⟨j, mem_lvlIdx.mpr ⟨hj1, hj2⟩, hne⟩
          simp only [theight]
          push_cast
          omega
        · have := (posTree_embed v l r k j hj1 hj2).2
          rw [hje, this] at hne
          have : (k:Int) ≤ theight r := (ihr k).mp ⟨j, mem_lvlIdx.mpr ⟨hj1, hj2⟩, hne⟩
          simp only [theight]
          push_cast
          omega
      · intro hk
        simp only [theight] at hk
        have hmax : (k:Int) ≤ max (theight l) (theight r) := by push_cast at hk ⊢; omega
        rcases le_max_iff.mp hmax with hside | hside
        · obtain ⟨j, hmem, hne⟩ := (ihl k).mpr hside
          rw [mem_lvlIdx] at hmem
          refine ⟨j + 2^k, mem_lvlIdx.mpr ⟨by omega, by omega⟩, ?_⟩
          rw [(posTree_embed v l r k j hmem.1 hmem.2).1]
          exact hne
        · obtain ⟨j, hmem, hne⟩ := (ihr k).mpr hside
          rw [mem_lvlIdx] at hmem
          refine ⟨j + 2^(k+1), mem_lvlIdx.mpr ⟨by omega, by omega⟩, ?_⟩
          rw [(posTree_embed v l r k j hmem.1 hmem.2).2]
          exact hne

/-- Positions past level `theight t` never hold a node. -/
theorem posTree_eq_nil_of_deep {t : BTree} {i : Nat}
    (h : (2 ^ ((theight t).toNat + 1) - 1 : Nat) ≤ i) : posTree t i = .nil := by
  by_contra hne
  have hmem := mem_lvlIdx_log i
  have hlev := (exists_on_level_iff t (Nat.log 2 (i+1))).mp ⟨i, hmem, hne⟩
  rw [mem_lvlIdx] at hmem
  -- the level of `i` is at most `(theight t).toNat`, so `i` is within range
  have hle : Nat.log 2 (i+1) ≤ (theight t).toNat := by omega
  have hpow : 2 ^ (Nat.log 2 (i+1) + 1) ≤ 2 ^ ((theight t).toNat + 1) :=
    Nat.pow_le_pow_right (by norm_num) (by omega)
  omega

/-- A position that holds a node lies within the full enumeration of the
tree's levels. -/
theorem lt_of_posTree_ne_nil {t : BTree} {i : Nat} (h : posTree t i ≠ .nil) :
    i < 2 ^ ((theight t).toNat + 1) - 1 := by
  by_contra hcon
  exact h (posTree_eq_nil_of_deep (by omega))

/-! ### `_build_list` emits the positional enumeration of the tree -/

theorem childSlots_posTree (t : BTree) (i : Nat) :
    childSlots (posTree t i) = [posTree t (2*i+1), posTree t (2*i+2)] := by
  rw [posTree_left, posTree_right]
  cases posTree t i <;> simp [childSlots, leftOf, rightOf]

theorem flatMap_children_range' (s n : Nat) :
    (List.range' s n).flatMap (fun i => [2*i+1, 2*i+2]) = List.range' (2*s+1) (2*n) := by
  induction n generalizing s with
  | zero => rfl
  | succ n ih =>
    rw [List.range'_succ, List.flatMap_cons, ih (s+1)]
    have e1 : 2*(s+1)+1 = (2*s+1) + 2 := by omega
    have e2 : 2*(n+1) = 2*n + 2 := by omega
    have e3 : 2*s+2 = (2*s+1)+1 := by omega
    rw [e1, e2, ← List.range'_append_1 (2*s+1) 2 (2*n), e3]
    rfl

theorem nextSlots_map_posTree (t : BTree) (k : Nat) :
    nextSlots ((lvlIdx k).map (posTree t)) = (lvlIdx (k+1)).map (posTree t) := by
  have h1 : nextSlots ((lvlIdx k).map (posTree t)) =
      (lvlIdx k).flatMap (fun i => [posTree t (2*i+1), posTree t (2*i+2)]) := by
    rw [nextSlots, List.flatMap_map]
    congr 1
    funext i
    exact childSlots_posTree t i
  have h2 : (lvlIdx k).flatMap (fun i => [posTree t (2*i+1), posTree t (2*i+2)]) =
      ((lvlIdx k).flatMap (fun i => [2*i+1, 2*i+2])).map (posTree t) := by
    rw [List.map_flatMap]
    simp only [List.map_cons, List.map_nil]
  rw [h1, h2, lvlIdx, flatMap_children_range']
  have h3 : 2*(2^k - 1)+1 = 2^(k+1) - 1 := by
    have : 1 ≤ 2^k := Nat.one_le_two_pow
    have : 2^(k+1) = 2^k + 2^k := by rw [pow_succ]; omega
    omega
  have h4 : 2*2^k = 2^(k+1) := by rw [pow_succ]; omega
  rw [h3, h4, lvlIdx]

theorem slotHasChild_eq_any (t : BTree) :
    slotHasChild t = (childSlots t).any isRealNode := by
  cases t with
  | nil => rfl
  | node v l r =>
    simp only [slotHasChild, childSlots, List.any_cons, List.any_nil, Bool.or_false]
    cases l <;> cases r <;> simp [isRealNode]

theorem levelNotEmpty_iff_next (ns : List BTree) :
    levelNotEmpty ns = (nextSlots ns).any isRealNode := by
  rw [levelNotEmpty, nextSlots, List.any_flatMap]
  congr 1
  funext t
  exact slotHasChild_eq_any t

theorem isRealNode_iff {t : BTree} : isRealNode t = true ↔ t ≠ .nil := by
  cases t <;> simp [isRealNode]

/-- The levels emitted by `bfsLevels` starting at level `k` are exactly the
values at positions `2^k - 1, …, 2^(H+1) - 2` where `H` is the height. -/
theorem bfsLevels_map_posTree (t : BTree) (ht : t ≠ .nil) :
    ∀ n k, k + n = (theight t).toNat →
      bfsLevels ((lvlIdx k).map (posTree t)) =
        (List.range' (2^k - 1) (2^((theight t).toNat + 1) - 2^k)).map (valAt t) := by
  have hth : 0 ≤ theight t := by
    cases t with
    | nil => exact absurd rfl ht
    | node v l r => exact theight_nonneg
  intro n
  induction n with
  | zero =>
    intro k hk
    rw [Nat.add_zero] at hk
    subst hk
    set H := (theight t).toNat with hH
    have hempty : levelNotEmpty ((lvlIdx H).map (posTree t)) = false := by
      rw [levelNotEmpty_iff_next, nextSlots_map_posTree]
      rw [List.any_eq_false]
      intro s hs
      rw [List.mem_map] at hs
      obtain ⟨i, hi, hie⟩ := hs
      subst hie
      rw [Bool.not_eq_true, ← Bool.not_eq_true, isRealNode_iff, not_not]
      by_contra hne
      have := (exists_on_level_iff t (H+1)).mp ⟨i, hi, hne⟩
      have hHt : (H : Int) = theight t := Int.toNat_of_nonneg hth
      omega
    rw [bfsLevels, dif_neg (by rw [hempty]; exact Bool.false_ne_true)]
    rw [List.append_nil]
    have hlen : 2^(H+1) - 2^H = 2^H := by
      have h1 : 1 ≤ 2^H := Nat.one_le_two_pow
      have h2 : 2^(H+1) = 2^H + 2^H := by rw [pow_succ]; omega
      generalize hA : (2:Nat)^H = a at *
      generalize hB : (2:Nat)^(H+1) = b at *
      omega
    rw [hlen, levelVals, List.map_map, lvlIdx]
    rfl
  | succ n ih =>
    intro k hk
    set H := (theight t).toNat with hH
    have hne : levelNotEmpty ((lvlIdx k).map (posTree t)) = true := by
      rw [levelNotEmpty_iff_next, nextSlots_map_posTree, List.any_eq_true]
      have hlev : ((k+1 : Nat) : Int) ≤ theight t := by
        have hHt : (H : Int) = theight t := Int.toNat_of_nonneg hth
        omega
      obtain ⟨i, hi, hiRe⟩ := (exists_on_level_iff t (k+1)).mpr hlev
      exact ⟨posTree t i, List.mem_map_of_mem (posTree t) hi, isRealNode_iff.mpr hiRe⟩
    rw [bfsLevels, dif_pos hne, nextSlots_map_posTree]
    rw [ih (k+1) (by omega)]
    have hlv : levelVals ((lvlIdx k).map (posTree t)) = (lvlIdx k).map (valAt t) := by
      rw [levelVals, List.map_map]
      rfl
    rw [hlv, lvlIdx, ← List.map_append]
    have h1pow : 1 ≤ 2^k := Nat.one_le_two_pow
    have hp2 : 2^(k+1) = 2^k + 2^k := by rw [pow_succ]; omega
    have hHk : 2^(k+1) ≤ 2^(H+1) := Nat.pow_le_pow_right (by norm_num) (by omega)
    have hs : (2^k - 1) + 2^k = 2^(k+1) - 1 := by omega
    rw [← hs, List.range'_append_1]
    congr 2
    omega

/-- `bfsLevels [t]` is the full enumeration `valAt t 0, …` over all levels of
the tree. -/
theorem bfsLevels_single (t : BTree) (ht : t ≠ .nil) :
    bfsLevels [t] =
      (List.range (2^((theight t).toNat + 1) - 1)).map (valAt t) := by
  have h0 : [t] = (lvlIdx 0).map (posTree t) := by
    have : lvlIdx 0 = [0] := rfl
    rw [this, List.map_cons, List.map_nil, posTree_zero]
  rw [h0, bfsLevels_map_posTree t ht ((theight t).toNat) 0 (by omega)]
  rw [List.range_eq_range']
  norm_num

/-! ### Trailing-sentinel trimming -/

theorem dropTrailingNulls_append_replicate (v : List (Option Int)) (m : Nat) :
    dropTrailingNulls (v ++ List.replicate m none) = dropTrailingNulls v := by
  rw [dropTrailingNulls, dropTrailingNulls, List.reverse_append, List.reverse_replicate]
  congr 1
  induction m with
  | zero => rfl
  | succ m ih =>
    rw [List.replicate_succ, List.cons_append, List.dropWhile_cons_of_pos (by rfl)]
    exact ih

theorem dropTrailingNulls_eq_self {v : List (Option Int)}
    (h : v.getLast? ≠ some none) : dropTrailingNulls v = v := by
  rw [dropTrailingNulls]
  rw [List.getLast?_eq_head?_reverse] at h
  cases hrev : v.reverse with
  | nil =>
    have : v = [] := by simpa using congrArg List.reverse hrev
    simp [this]
  | cons a rest =>
    rw [hrev] at h
    simp only [List.head?_cons] at h
    have ha : Option.isNone a = false := by
      cases a with
      | none => exact absurd rfl h
      | some x => rfl
    rw [List.dropWhile_cons_of_neg (by rw [ha]; exact Bool.false_ne_true), ← hrev,
      List.reverse_reverse]

/-- Any list splits as its trimmed part followed by trailing sentinels, and
the trimmed part does not end in a sentinel. -/
theorem dropTrailingNulls_spec (v : List (Option Int)) :
    v = dropTrailingNulls v ++
        List.replicate (v.length - (dropTrailingNulls v).length) none ∧
    (dropTrailingNulls v).getLast? ≠ some none := by
  have hsplit := List.takeWhile_append_dropWhile (p := Option.isNone) (l := v.reverse)
  have htake : v.reverse.takeWhile Option.isNone =
      List.replicate (v.reverse.takeWhile Option.isNone).length none := by
    apply List.eq_replicate_of_mem
    intro b hb
    have := List.mem_takeWhile_imp hb
    cases b with
    | none => rfl
    | some x => simp [Option.isNone] at this
  constructor
  · conv_lhs => rw [← List.reverse_reverse v, ← hsplit]
    simp only [List.reverse_append, dropTrailingNulls]
    congr 1
    · rw [htake, List.reverse_replicate]
      congr 1
      have hlen : v.length =
          (v.reverse.takeWhile Option.isNone).length +
          (v.reverse.dropWhile Option.isNone).length := by
        conv_lhs => rw [← List.length_reverse, ← hsplit]
        rw [List.length_append]
      rw [List.length_reverse]
      omega
  · simp only [dropTrailingNulls]
    rw [List.getLast?_eq_head?_reverse, List.reverse_reverse]
    cases hd : v.reverse.dropWhile Option.isNone with
    | nil => simp
    | cons a rest =>
      have ha : Option.isNone a = false := by
        have := List.head?_dropWhile_not Option.isNone v.reverse
        rw [hd] at this
        simpa using this
      cases a with
      | none => simp [Option.isNone] at ha
      | some x => simp

/-! ### `subtreeAt` versus `posTree`, and the `_build_tree` loop -/

/-- Well-formedness of a flat sequence: no non-sentinel entry whose parent
position holds the sentinel. -/
def noOrphan (vs : List (Option Int)) : Prop :=
  ∀ i, i < vs.length → 1 ≤ i → vs.getD i none ≠ none →
    vs.getD (parentIdx i) none ≠ none

instance (vs : List (Option Int)) : Decidable (noOrphan vs) := by
  unfold noOrphan
  infer_instance

theorem topVal_subtreeAt (vs : List (Option Int)) (i : Nat) :
    topVal (subtreeAt vs i) = vs.getD i none := by
  rw [subtreeAt]
  split <;> simp_all [topVal]

theorem subtreeAt_eq_nil {vs : List (Option Int)} {i : Nat}
    (h : vs.getD i none = none) : subtreeAt vs i = .nil := by
  rw [subtreeAt]
  split <;> simp_all

theorem subtreeAt_eq_node {vs : List (Option Int)} {i : Nat} {x : Int}
    (h : vs.getD i none = some x) :
    subtreeAt vs i = .node x (subtreeAt vs (2*i+1)) (subtreeAt vs (2*i+2)) := by
  rw [subtreeAt]
  split <;> simp_all

/-- On well-formed sequences, navigating the built tree to position `i`
reaches the subtree built at position `i`. -/
theorem posTree_subtreeAt {vs : List (Option Int)} (hno : noOrphan vs) :
    ∀ i, posTree (subtreeAt vs 0) i = subtreeAt vs i := by
  intro i
  induction i using Nat.strong_induction_on with
  | _ i ih =>
    match i with
    | 0 => exact posTree_zero _
    | j + 1 =>
      set p := ((j+1) - 1) / 2 with hp
      have hsplit : j + 1 = 2*p + 1 ∨ j + 1 = 2*p + 2 := by omega
      have hip : p < j + 1 := by omega
      have hchild : ∀ c, (c = 2*p+1 ∨ c = 2*p+2) → vs.getD p none = none →
          subtreeAt vs c = .nil := by
        intro c hc hnone
        apply subtreeAt_eq_nil
        by_cases hlen : c < vs.length
        · by_contra hne
          have h1c : 1 ≤ c := by omega
          have := hno c hlen h1c hne
          have hpc : parentIdx c = p := by
            rcases hc with hc | hc <;> (subst hc; rw [parentIdx]; omega)
          rw [hpc] at this
          exact this hnone
        · exact vs.getD_eq_default none (by omega)
      rcases hsplit with hcase | hcase
      · rw [hcase, posTree_left, ih p hip]
        cases hv : vs.getD p none with
        | none =>
          rw [subtreeAt_eq_nil hv, leftOf]
          exact (hchild (2*p+1) (Or.inl rfl) hv).symm
        | some x =>
          rw [subtreeAt_eq_node hv, leftOf]
      · rw [hcase, posTree_right, ih p hip]
        cases hv : vs.getD p none with
        | none =>
          rw [subtreeAt_eq_nil hv, rightOf]
          exact (hchild (2*p+2) (Or.inr rfl) hv).symm
        | some x =>
          rw [subtreeAt_eq_node hv, rightOf]

theorem valAt_subtreeAt {vs : List (Option Int)} (hno : noOrphan vs) (i : Nat) :
    valAt (subtreeAt vs 0) i = vs.getD i none := by
  rw [valAt, posTree_subtreeAt hno i, topVal_subtreeAt]

/-- Whether a fallible result is a success. -/
def isOkE {α : Type} : Except String α → Bool
  | .ok _ => true
  | .error _ => false

theorem buildLoop_ok_iff (vs : List (Option Int)) :
    ∀ m index nodes, vs.length - index ≤ m → 1 ≤ index →
    nodes.length = vs.length →
    (∀ j, j < vs.length →
      (nodes.getD j false = true ↔ (j < index ∧ vs.getD j none ≠ none))) →
    (isOkE (buildLoop vs index nodes) = true ↔
      ∀ i, i < vs.length → index ≤ i → vs.getD i none ≠ none →
        vs.getD (parentIdx i) none ≠ none) := by
  intro m
  induction m with
  | zero =>
    intro index nodes hm h1 hlen hinv
    rw [buildLoop, dif_neg (by omega)]
    constructor
    · intro _ i hi hidx
      omega
    · intro _
      rfl
  | succ m ih =>
    intro index nodes hm h1 hlen hinv
    by_cases hidx : index < vs.length
    · rw [buildLoop, dif_pos hidx]
      cases hv : vs.getD index none with
      | none =>
        have hrec := ih (index+1) nodes (by omega) (by omega) hlen ?_
        · rw [hrec]
          constructor
          · intro h i hi hile hne
            rcases Nat.lt_or_ge index i with hlt | hge
            · exact h i hi (by omega) hne
            · have : i = index := by omega
              subst this
              exact absurd hv hne
          · intro h i hi hile hne
            exact h i hi (by omega) hne
        · intro j hj
          rw [hinv j hj]
          constructor
          · rintro ⟨hji, hne⟩
            exact ⟨by omega, hne⟩
          · rintro ⟨hji, hne⟩
            refine ⟨?_, hne⟩
            rcases Nat.lt_or_ge j index with hlt | hge
            · exact hlt
            · have : j = index := by omega
              subst this
              exact absurd hv hne
      | some x =>
        have hp : parentIdx index < index := by rw [parentIdx]; omega
        have hplen : parentIdx index < vs.length := by omega
        have hnodesp : nodes.getD (parentIdx index) false = true ↔
            vs.getD (parentIdx index) none ≠ none := by
          rw [hinv (parentIdx index) hplen]
          constructor
          · rintro ⟨_, h⟩
            exact h
          · intro h
            exact ⟨by omega, h⟩
        by_cases hpz : nodes.getD (parentIdx index) false = false
        · rw [if_pos hpz]
          have hpnone : vs.getD (parentIdx index) none = none := by
            by_contra hcon
            have htr := hnodesp.mpr hcon
            rw [htr] at hpz
            exact Bool.noConfusion hpz
          constructor
          · intro hfalse
            exact absurd hfalse (by rw [isOkE]; exact Bool.false_ne_true)
          · intro h
            exfalso
            exact h index hidx (le_refl index) (by rw [hv]; exact Option.noConfusion) hpnone
        · rw [if_neg hpz]
          have hpar : vs.getD (parentIdx index) none ≠ none := by
            rw [← hnodesp]
            cases hb : nodes.getD (parentIdx index) false with
            | false => exact absurd hb hpz
            | true => rfl
          have hrec := ih (index+1) (nodes.set index true) (by omega) (by omega)
            (by rw [List.length_set]; exact hlen) ?_
          · rw [hrec]
            constructor
            · intro h i hi hile hne
              rcases Nat.lt_or_ge index i with hlt | hge
              · exact h i hi (by omega) hne
              · have : i = index := by omega
                subst this
                exact hpar
            · intro h i hi hile hne
              exact h i hi (by omega) hne
          · intro j hj
            by_cases hji : j = index
            · subst hji
              have : (nodes.set j true).getD j false = true := by
                rw [List.getD_eq_getElem?_getD, List.getElem?_set_self (by omega)]
                rfl
              rw [this]
              simp only [true_iff]
              exact ⟨by omega, by rw [hv]; exact Option.noConfusion⟩
            · have : (nodes.set index true).getD j false = nodes.getD j false := by
                rw [List.getD_eq_getElem?_getD, List.getD_eq_getElem?_getD,
                  List.getElem?_set_ne (fun hcon => hji hcon.symm)]
              rw [this, hinv j hj]
              constructor
              · rintro ⟨hji2, hne⟩
                exact ⟨by omega, hne⟩
              · rintro ⟨hji2, hne⟩
                exact ⟨by omega, hne⟩
    · rw [buildLoop, dif_neg hidx]
      constructor
      · intro _ i hi hile
        omega
      · intro _
        rfl

/-- `_build_tree` succeeds on a sequence whose head is a node and which has
no orphan, and then builds `subtreeAt vs 0`. -/
theorem _build_tree_eq_ok {vs : List (Option Int)}
    (hhead : vs.getD 0 none ≠ none) (hno : noOrphan vs) :
    _build_tree vs = .ok (subtreeAt vs 0) := by
  cases hvs : vs with
  | nil =>
    subst hvs
    exact absurd rfl hhead
  | cons v0 rest =>
    subst hvs
    cases v0 with
    | none => exact absurd rfl hhead
    | some x =>
      rw [_build_tree]
      have hok := (buildLoop_ok_iff (some x :: rest) ((some x :: rest).length - 1) 1
        ((List.replicate (some x :: rest).length false).set 0 true) (by omega) (by omega)
        (by rw [List.length_set, List.length_replicate]) ?_).mpr ?_
      · cases hloop : buildLoop (some x :: rest) 1
            ((List.replicate (some x :: rest).length false).set 0 true) with
        | error e =>
          rw [hloop] at hok
          exact absurd hok (by rw [isOkE]; exact Bool.false_ne_true)
        | ok ns => rfl
      · intro j hj
        by_cases hj0 : j = 0
        · subst hj0
          have hset : ((List.replicate (some x :: rest).length false).set 0 true).getD 0 false
              = true := by
            rw [List.getD_eq_getElem?_getD,
              List.getElem?_set_self (by rw [List.length_replicate]; omega)]
            rfl
          rw [hset]
          simp only [true_iff]
          exact ⟨by omega, by rw [List.getD_cons_zero]; exact Option.noConfusion⟩
        · have hset : ((List.replicate (some x :: rest).length false).set 0 true).getD j false
              = false := by
            rw [List.getD_eq_getElem?_getD, List.getElem?_set_ne (fun hcon => hj0 hcon.symm)]
            rw [List.getElem?_replicate]
            split <;> rfl
          rw [hset]
          constructor
          · intro hcon
            exact absurd hcon Bool.false_ne_true
          · rintro ⟨hlt, _⟩
            omega
      · intro i hi h1i hne
        exact hno i hi h1i hne

/-- `_build_tree` fails exactly on malformed non-empty sequences. -/
theorem _build_tree_error_iff (vs : List (Option Int)) :
    (∃ e, _build_tree vs = .error e) ↔
      (vs ≠ [] ∧ (vs.getD 0 none = none ∨ ¬ noOrphan vs)) := by
  constructor
  · rintro ⟨e, he⟩
    constructor
    · intro hcon
      subst hcon
      rw [_build_tree] at he
      exact Except.noConfusion he
    · by_contra hcon
      push_neg at hcon
      obtain ⟨hhead, hno⟩ := hcon
      rw [_build_tree_eq_ok hhead hno] at he
      exact Except.noConfusion he
  · rintro ⟨hne, hbad⟩
    cases hvs : vs with
    | nil => exact absurd hvs hne
    | cons v0 rest =>
      subst hvs
      cases hv0 : v0 with
      | none =>
        refine ⟨"Node missing at index 0", ?_⟩
        rw [_build_tree]
      | some x =>
        subst hv0
        rcases hbad with hh | hno
        · rw [List.getD_cons_zero] at hh
          exact absurd hh Option.noConfusion
        · rw [_build_tree]
          have hfail : isOkE (buildLoop (some x :: rest) 1
              ((List.replicate (some x :: rest).length false).set 0 true)) = false := by
            rw [← Bool.not_eq_true]
            intro hok
            apply hno
            intro i hi h1i hnei
            refine (buildLoop_ok_iff (some x :: rest) ((some x :: rest).length - 1) 1
              ((List.replicate (some x :: rest).length false).set 0 true) (by omega) (by omega)
              (by rw [List.length_set, List.length_replicate]) ?_).mp hok i hi h1i hnei
            intro j hj
            by_cases hj0 : j = 0
            · subst hj0
              have hset : ((List.replicate (some x :: rest).length false).set 0 true).getD 0 false
                  = true := by
                rw [List.getD_eq_getElem?_getD,
                  List.getElem?_set_self (by rw [List.length_replicate]; omega)]
                rfl
              rw [hset]
              simp only [true_iff]
              exact ⟨by omega, by rw [List.getD_cons_zero]; exact Option.noConfusion⟩
            · have hset : ((List.replicate (some x :: rest).length false).set 0 true).getD j false
                  = false := by
                rw [List.getD_eq_getElem?_getD, List.getElem?_set_ne (fun hcon => hj0 hcon.symm)]
                rw [List.getElem?_replicate]
                split <;> rfl
              rw [hset]
              constructor
              · intro hcon
                exact absurd hcon Bool.false_ne_true
              · rintro ⟨hlt, _⟩
                omega
          cases hloop : buildLoop (some x :: rest) 1
              ((List.replicate (some x :: rest).length false).set 0 true) with
          | error e => exact ⟨e, rfl⟩
          | ok ns =>
            rw [hloop] at hfail
            exact Bool.noConfusion hfail

/-! ### The round-trip laws -/

theorem map_range_getD_self (v : List (Option Int)) :
    (List.range v.length).map (fun i => v.getD i none) = v := by
  induction v with
  | nil => rfl
  | cons a v ih =>
    rw [List.length_cons, List.range_succ_eq_map, List.map_cons, List.map_map]
    have h2 : List.map ((fun i => (a :: v).getD i none) ∘ Nat.succ)
        (List.range v.length) = v := ih
    rw [h2]
    rfl

theorem map_range_getD (v : List (Option Int)) (n : Nat) (h : v.length ≤ n) :
    (List.range n).map (fun i => v.getD i none) =
      v ++ List.replicate (n - v.length) none := by
  induction n with
  | zero =>
    have hz : v = [] := List.length_eq_zero.mp (by omega)
    subst hz
    rfl
  | succ n ih =>
    by_cases hc : v.length = n + 1
    · rw [← hc, map_range_getD_self]
      simp
    · have hle : v.length ≤ n := by omega
      rw [List.range_succ, List.map_append, ih hle, List.map_cons, List.map_nil]
      rw [v.getD_eq_default none hle, List.append_assoc]
      congr 1
      rw [← List.replicate_succ' (n - v.length) none]
      congr 1
      omega

/-- Core of the round-trip law `toFlatSequence (fromFlatSequence v) = v`:
`_build_list` of the tree built from a well-formed sequence restores it. -/
theorem build_list_subtreeAt {vs : List (Option Int)}
    (hhead : vs.getD 0 none ≠ none) (hno : noOrphan vs)
    (hlast : vs.getLast? ≠ some none) :
    _build_list (subtreeAt vs 0) = vs := by
  set t := subtreeAt vs 0 with ht
  have htop : topVal t = vs.getD 0 none := topVal_subtreeAt vs 0
  have htne : t ≠ .nil := by
    intro hcon
    rw [hcon, topVal] at htop
    exact hhead htop.symm
  have hlen1 : 1 ≤ vs.length := by
    by_contra hcon
    have hz : vs = [] := List.length_eq_zero.mp (by omega)
    subst hz
    exact hhead rfl
  have hlastpos : vs.getD (vs.length - 1) none ≠ none := by
    rw [List.getD_eq_getElem?_getD, ← List.getLast?_eq_getElem?]
    cases hgl : vs.getLast? with
    | none =>
      have : vs = [] := List.getLast?_eq_none_iff.mp hgl
      subst this
      simp at hlen1
    | some a =>
      cases a with
      | none => exact absurd hgl hlast
      | some x => simp
  have hN : vs.length - 1 < 2 ^ ((theight t).toNat + 1) - 1 := by
    apply lt_of_posTree_ne_nil
    rw [posTree_subtreeAt hno]
    intro hcon
    have := topVal_subtreeAt vs (vs.length - 1)
    rw [hcon, topVal] at this
    exact hlastpos this.symm
  rw [_build_list, bfsLevels_single t htne]
  have hmap : (List.range (2^((theight t).toNat + 1) - 1)).map (valAt t) =
      (List.range (2^((theight t).toNat + 1) - 1)).map (fun i => vs.getD i none) :=
    List.map_congr_left (fun i _ => valAt_subtreeAt hno i)
  rw [hmap, map_range_getD vs _ (by omega), dropTrailingNulls_append_replicate,
    dropTrailingNulls_eq_self hlast]

/-- A sequence whose positional reads all agree with a tree rebuilds exactly
that tree. -/
theorem subtreeAt_eq_posTree {w : List (Option Int)} {t : BTree}
    (hg : ∀ i, w.getD i none = valAt t i) : ∀ i, subtreeAt w i = posTree t i := by
  have hnilcase : ∀ i, w.getD i none = none → subtreeAt w i = posTree t i := by
    intro i hni
    rw [subtreeAt_eq_nil hni]
    have hva : valAt t i = none := by rw [← hg i]; exact hni
    cases hp : posTree t i with
    | nil => rfl
    | node x l r =>
      rw [valAt, hp, topVal] at hva
      exact absurd hva Option.noConfusion
  have main : ∀ m i, w.length - i ≤ m → subtreeAt w i = posTree t i := by
    intro m
    induction m with
    | zero =>
      intro i hm
      exact hnilcase i (w.getD_eq_default none (by omega))
    | succ m ih =>
      intro i hm
      cases hv : w.getD i none with
      | none => exact hnilcase i hv
      | some x =>
        have hil : i < w.length := by
          by_contra hcon
          rw [w.getD_eq_default none (by omega)] at hv
          exact Option.noConfusion hv
        rw [subtreeAt_eq_node hv]
        have hva : valAt t i = some x := by rw [← hg i]; exact hv
        cases hp : posTree t i with
        | nil =>
          rw [valAt, hp, topVal] at hva
          exact absurd hva Option.noConfusion
        | node y l r =>
          have hy : y = x := by
            rw [valAt, hp, topVal] at hva
            exact Option.some.inj hva
          subst hy
          rw [ih (2*i+1) (by omega), ih (2*i+2) (by omega),
            posTree_left, posTree_right, hp, leftOf, rightOf]
  intro i
  exact main (w.length - i) i (le_refl _)

/-- The values of `_build_list t` read with `getD` agree with the positional
values of `t` at every index. -/
theorem getD_build_list {t : BTree} (ht : t ≠ .nil) :
    ∀ i, (_build_list t).getD i none = valAt t i := by
  intro i
  set N := 2 ^ ((theight t).toNat + 1) - 1 with hN
  have hw0 : bfsLevels [t] = (List.range N).map (valAt t) := bfsLevels_single t ht
  have hlen0 : (bfsLevels [t]).length = N := by
    rw [hw0, List.length_map, List.length_range]
  have hg0 : ∀ j, (bfsLevels [t]).getD j none = valAt t j := by
    intro j
    by_cases hj : j < N
    · rw [hw0, List.getD_eq_getElem?_getD, List.getElem?_map,
        List.getElem?_range (by omega)]
      rfl
    · rw [(bfsLevels [t]).getD_eq_default none (by omega)]
      rw [valAt, posTree_eq_nil_of_deep (by omega), topVal]
  obtain ⟨hsplit, _⟩ := dropTrailingNulls_spec (bfsLevels [t])
  rw [_build_list]
  by_cases hi : i < (dropTrailingNulls (bfsLevels [t])).length
  · rw [← hg0 i, List.getD_eq_getElem?_getD, List.getD_eq_getElem?_getD]
    conv_rhs => rw [hsplit]
    rw [List.getElem?_append_left hi]
  · rw [(dropTrailingNulls (bfsLevels [t])).getD_eq_default none (by omega)]
    by_cases hiN : i < (bfsLevels [t]).length
    · rw [← hg0 i, List.getD_eq_getElem?_getD]
      conv_rhs => rw [hsplit]
      rw [List.getElem?_append_right (by omega), List.getElem?_replicate]
      have hlt : i - (dropTrailingNulls (bfsLevels [t])).length <
          (bfsLevels [t]).length - (dropTrailingNulls (bfsLevels [t])).length := by
        omega
      rw [if_pos hlt]
      rfl
    · rw [valAt, posTree_eq_nil_of_deep (by omega), topVal]

/-- Core of the tree-side round-trip: rebuilding from the serialized form of a
non-empty tree restores the tree. -/
theorem build_tree_build_list {t : BTree} (ht : t ≠ .nil) :
    _build_tree (_build_list t) = .ok t := by
  have hg := getD_build_list ht
  have hhead : (_build_list t).getD 0 none ≠ none := by
    rw [hg 0, valAt, posTree_zero]
    cases t with
    | nil => exact absurd rfl ht
    | node v l r => rw [topVal]; exact Option.noConfusion
  have hno : noOrphan (_build_list t) := by
    intro i hi h1i hne
    rw [hg i] at hne
    rw [hg (parentIdx i)]
    set p := parentIdx i with hp
    have hsplit : i = 2*p + 1 ∨ i = 2*p + 2 := by rw [hp, parentIdx]; omega
    have hpne : posTree t p ≠ .nil := by
      intro hcon
      obtain ⟨hc1, hc2⟩ := posTree_child_nil hcon
      rcases hsplit with hcase | hcase
      · rw [hcase, valAt, hc1] at hne
        exact hne rfl
      · rw [hcase, valAt, hc2] at hne
        exact hne rfl
    rw [valAt]
    cases hq : posTree t p with
    | nil => exact absurd hq hpne
    | node v l r => rw [topVal]; exact Option.noConfusion
  rw [_build_tree_eq_ok hhead hno]
  congr 1
  rw [subtreeAt_eq_posTree hg 0, posTree_zero]

/-- `_build_list` on the sentinel: the first level is the single sentinel
slot, which is trimmed away. -/
theorem _build_list_nil : _build_list .nil = [] := by
  rw [_build_list, bfsLevels, dif_neg (by decide)]
  rfl

/-! ### `inspect`

The breadth-first state of `inspect`: the boolean classifications and
counters it threads through the `while current_nodes` loop.  `min_value`
starts at `float('inf')` and `max_value` at `float('-inf')`; these sentinels
are modelled by `none`.  `current_depth` is threaded separately (it is the
loop counter). -/

structure IState where
  is_bst : Bool
  is_descending : Bool
  is_ascending : Bool
  is_left_padded : Bool
  min_value : Option Int
  max_value : Option Int
  node_count : Nat
  leaf_count : Nat
  min_leaf_depth : Int
deriving Repr, DecidableEq

def initIState : IState :=
  { is_bst := true, is_descending := true, is_ascending := true,
    is_left_padded := true, min_value := none, max_value := none,
    node_count := 0, leaf_count := 0, min_leaf_depth := 0 }

/-- One iteration of `for child in (left_child, right_child)`: update
`(is_left_padded, null_encountered)`. -/
def padStep (lp enc : Bool) (child : BTree) : Bool × Bool :=
  if child ≠ .nil ∧ enc then (false, enc)
  else if child = .nil ∧ ¬ enc then (lp, true)
  else (lp, enc)

/-- The non-sentinel children appended to `next_nodes` by one node. -/
def realChildren : BTree → List BTree
  | .nil => []
  | .node _ l r =>
    (match l with
     | .nil => []
     | .node _ _ _ => [l]) ++
    (match r with
     | .nil => []
     | .node _ _ _ => [r])

/-- The `if left_child != _null:` block of the loop body: clear flags from the
comparison with the left child's value and append it to `next_nodes`. -/
def leftCheck (v : Int) (st : IState) (nxt : List BTree) : BTree → IState × List BTree
  | .nil => (st, nxt)
  | .node lv a b =>
    (if lv > v then { st with is_descending := false, is_bst := false }
     else if lv < v then { st with is_ascending := false }
     else st,
     nxt ++ [.node lv a b])

/-- The `if right_child != _null:` block of the loop body. -/
def rightCheck (v : Int) (st : IState) (nxt : List BTree) : BTree → IState × List BTree
  | .nil => (st, nxt)
  | .node rv a b =>
    (if rv > v then { st with is_descending := false }
     else if rv < v then { st with is_ascending := false, is_bst := false }
     else st,
     nxt ++ [.node rv a b])

/-- The body of `for node in current_nodes` for one node, at depth `d`.
The sentinel case is unreachable in a successful run: `inspectTree` raises on
a sentinel root before the loop body runs, and later levels only ever contain
real nodes; it is mapped to a no-op. -/
def stepNode (d : Int) : IState × Bool × List BTree → BTree → IState × Bool × List BTree
  | (st, enc, nxt), .nil => (st, enc, nxt)
  | (st, enc, nxt), .node v l r =>
    let st1 : IState :=
      { st with node_count := st.node_count + 1,
                min_value := some (match st.min_value with
                  | none => v
                  | some m => min m v),
                max_value := some (match st.max_value with
                  | none => v
                  | some m => max m v) }
    let p1 := padStep st1.is_left_padded enc l
    let p2 := padStep p1.1 p1.2 r
    let st2 := { st1 with is_left_padded := p2.1 }
    let st3 := if l = .nil ∧ r = .nil then
        { st2 with
          min_leaf_depth := if st2.min_leaf_depth = 0 then d else st2.min_leaf_depth,
          leaf_count := st2.leaf_count + 1 }
      else st2
    let s4 := leftCheck v st3 nxt l
    let s5 := rightCheck v s4.1 s4.2 r
    (s5.1, p2.2, s5.2)

/-- `for node in current_nodes`, folding `stepNode` over the level. -/
def procLevel (d : Int) (st : IState) (enc : Bool) (nxt : List BTree) :
    List BTree → IState × Bool × List BTree
  | [] => (st, enc, nxt)
  | t :: ts =>
    let acc := stepNode d (st, enc, nxt) t
    procLevel d acc.1 acc.2.1 acc.2.2 ts

theorem leftCheck_snd (v : Int) (st : IState) (nxt : List BTree) (l : BTree) :
    (leftCheck v st nxt l).2 = nxt ++ (match l with
      | .nil => []
      | .node _ _ _ => [l]) := by
  cases l with
  | nil => simp [leftCheck]
  | node lv a b => simp only [leftCheck]

theorem rightCheck_snd (v : Int) (st : IState) (nxt : List BTree) (r : BTree) :
    (rightCheck v st nxt r).2 = nxt ++ (match r with
      | .nil => []
      | .node _ _ _ => [r]) := by
  cases r with
  | nil => simp [rightCheck]
  | node rv a b => simp only [rightCheck]

theorem stepNode_next (d : Int) (st : IState) (enc : Bool) (nxt : List BTree)
    (t : BTree) : (stepNode d (st, enc, nxt) t).2.2 = nxt ++ realChildren t := by
  cases t with
  | nil => simp [stepNode, realChildren]
  | node v l r =>
    simp only [stepNode, rightCheck_snd, leftCheck_snd, realChildren]
    cases l <;> cases r <;> simp

theorem procLevel_next (d : Int) (ns : List BTree) :
    ∀ (st : IState) (enc : Bool) (nxt : List BTree),
      (procLevel d st enc nxt ns).2.2 = nxt ++ ns.flatMap realChildren := by
  induction ns with
  | nil =>
    intro st enc nxt
    simp [procLevel]
  | cons t ts ih =>
    intro st enc nxt
    rw [procLevel]
    rw [ih]
    rw [stepNode_next]
    simp

theorem mu_children_le (t : BTree) :
    2 * sumSizes (realChildren t) + (realChildren t).length ≤ 2 * tsize t := by
  cases t with
  | nil => simp [realChildren, sumSizes, tsize]
  | node v l r =>
    cases l <;> cases r <;>
      simp [realChildren, sumSizes, tsize] <;> omega

theorem mu_flatMap_le (ns : List BTree) :
    2 * sumSizes (ns.flatMap realChildren) + (ns.flatMap realChildren).length ≤
      2 * sumSizes ns := by
  induction ns with
  | nil => simp [sumSizes]
  | cons t ts ih =>
    rw [List.flatMap_cons, sumSizes_append, sumSizes_cons, List.length_append]
    have := mu_children_le t
    omega

/-- The `while current_nodes` loop of `inspect`, with `current_depth`
incremented at the top of each iteration.  Returns the final state and the
final `current_depth`. -/
def inspectLoop (st : IState) (d : Int) (ns : List BTree) : IState × Int :=
  match ns with
  | [] => (st, d)
  | t :: ts =>
    let acc := procLevel (d+1) st false [] (t :: ts)
    inspectLoop acc.1 (d+1) acc.2.2
termination_by 2 * sumSizes ns + ns.length
decreasing_by
  rw [procLevel_next, List.nil_append]
  have h1 := mu_flatMap_le (t :: ts)
  have h2 : 0 < (t :: ts).length := by simp
  omega

/-- The record returned by `inspect` (an immutable bundle of metrics). -/
structure IResult where
  is_height_balanced : Bool
  is_weight_balanced : Bool
  is_max_heap : Bool
  is_min_heap : Bool
  is_bst : Bool
  height : Int
  leaf_count : Nat
  node_count : Nat
  min_leaf_depth : Int
  max_leaf_depth : Int
  min_value : Option Int
  max_value : Option Int
deriving Repr, DecidableEq

/-- `inspect` on a tree root (after the input dispatch): the breadth-first
pass plus the `_is_balanced` check.  On the sentinel root (the case
`bt = _build_tree([])`), reading `value` raises `AttributeError`. -/
def inspectTree (t : BTree) : Except String IResult :=
  match t with
  | .nil => .error "AttributeError: NoneType object has no attribute value"
  | .node _ _ _ =>
    let res := inspectLoop initIState (-1) [t]
    .ok { is_height_balanced := decide (res.2 - res.1.min_leaf_depth < 2),
          is_weight_balanced := decide (0 ≤ _is_balanced t),
          is_max_heap := res.1.is_descending && res.1.is_left_padded &&
            decide (0 ≤ _is_balanced t),
          is_min_heap := res.1.is_ascending && res.1.is_left_padded &&
            decide (0 ≤ _is_balanced t),
          is_bst := res.1.is_bst,
          height := res.2,
          leaf_count := res.1.leaf_count,
          node_count := res.1.node_count,
          min_leaf_depth := res.1.min_leaf_depth,
          max_leaf_depth := res.2,
          min_value := res.1.min_value,
          max_value := res.1.max_value }

/-- The argument of the public entry points: either a flat sequence or a
node-rooted tree (`BTree.nil` as a "node" argument models passing `None`). -/
inductive BTInput where
  | list (vs : List (Option Int))
  | node (t : BTree)
deriving DecidableEq, Repr

/-- `inspect(bt)`: a list is first built into a tree (errors propagate), a
node is validated (a well-typed `BTree` always passes, see `_validate_tree`),
and anything else (modelled by the sentinel) raises `ValueError`. -/
def inspect : BTInput → Except String IResult
  | .list vs =>
    match _build_tree vs with
    | .error e => .error e
    | .ok t => inspectTree t
  | .node t =>
    match t with
    | .nil => .error "Expecting a list or a node"
    | .node _ _ _ => inspectTree t

/-- `convert(bt)`: sentinel to empty list, list to tree, tree to list. -/
def convert : BTInput → Except String BTInput
  | .list vs =>
    match _build_tree vs with
    | .error e => .error e
    | .ok t => .ok (.node t)
  | .node t =>
    match t with
    | .nil => .ok (.list [])
    | .node _ _ _ => .ok (.list (_build_list t))

/-! ### What the inspection flags compute

`is_bst`, `is_ascending` and `is_descending` end up as conjunctions over all
parent-child edges of the per-edge checks performed in the loop body; the
following predicates restate those per-edge checks and their closure over a
subtree. -/

/-- The per-child test clearing `is_descending` (and, on the left side,
`is_bst`): fails when the child's value is greater than the node's. -/
def notGtB (v : Int) : BTree → Bool
  | .nil => true
  | .node c _ _ => if c > v then false else true

/-- The per-child test clearing `is_ascending` (and, on the right side,
`is_bst`): fails when the child's value is less than the node's. -/
def notLtB (v : Int) : BTree → Bool
  | .nil => true
  | .node c _ _ => if c < v then false else true

/-- The `is_bst` check on one node: left child not greater, right child not
less. -/
def bstEdgeOk : BTree → Bool
  | .nil => true
  | .node v l r => notGtB v l && notLtB v r

/-- The `is_ascending` check on one node: no child less than the node. -/
def ascEdgeOk : BTree → Bool
  | .nil => true
  | .node v l r => notLtB v l && notLtB v r

/-- The `is_descending` check on one node: no child greater than the node. -/
def descEdgeOk : BTree → Bool
  | .nil => true
  | .node v l r => notGtB v l && notGtB v r

/-- `bstEdgeOk` at every node of the subtree. -/
def bstLocal : BTree → Bool
  | .nil => true
  | .node v l r => bstEdgeOk (.node v l r) && (bstLocal l && bstLocal r)

/-- `ascEdgeOk` at every node of the subtree. -/
def ascLocal : BTree → Bool
  | .nil => true
  | .node v l r => ascEdgeOk (.node v l r) && (ascLocal l && ascLocal r)

/-- `descEdgeOk` at every node of the subtree. -/
def descLocal : BTree → Bool
  | .nil => true
  | .node v l r => descEdgeOk (.node v l r) && (descLocal l && descLocal r)

/-- A node whose two children are both real nodes. -/
def fullNodeB : BTree → Bool
  | .node _ (.node _ _ _) (.node _ _ _) => true
  | _ => false

/-- A leaf: a real node with two sentinel children. -/
def leafB : BTree → Bool
  | .node _ .nil .nil => true
  | _ => false

theorem padStep_nil (lp enc : Bool) : padStep lp enc .nil = (lp, true) := by
  cases enc <;> simp [padStep]

theorem padStep_node (lp enc : Bool) (v : Int) (a b : BTree) :
    padStep lp enc (.node v a b) = ((if enc then false else lp), enc) := by
  cases enc <;> simp [padStep]

theorem leftCheck_fst_is_bst (v : Int) (st : IState) (nxt : List BTree)
    (l : BTree) : (leftCheck v st nxt l).1.is_bst = (st.is_bst && notGtB v l) := by
  cases l with
  | nil => simp [leftCheck, notGtB]
  | node lv a b => simp only [leftCheck, notGtB]; split_ifs <;> simp

theorem leftCheck_fst_is_ascending (v : Int) (st : IState) (nxt : List BTree)
    (l : BTree) :
    (leftCheck v st nxt l).1.is_ascending = (st.is_ascending && notLtB v l) := by
  cases l with
  | nil => simp [leftCheck, notLtB]
  | node lv a b => simp only [leftCheck, notLtB]; split_ifs <;> simp <;> omega

theorem leftCheck_fst_is_descending (v : Int) (st : IState) (nxt : List BTree)
    (l : BTree) :
    (leftCheck v st nxt l).1.is_descending = (st.is_descending && notGtB v l) := by
  cases l with
  | nil => simp [leftCheck, notGtB]
  | node lv a b => simp only [leftCheck, notGtB]; split_ifs <;> simp

theorem leftCheck_fst_is_left_padded (v : Int) (st : IState) (nxt : List BTree)
    (l : BTree) : (leftCheck v st nxt l).1.is_left_padded = st.is_left_padded := by
  cases l with
  | nil => simp [leftCheck]
  | node lv a b => simp only [leftCheck]; split_ifs <;> simp

theorem leftCheck_fst_min_leaf_depth (v : Int) (st : IState) (nxt : List BTree)
    (l : BTree) : (leftCheck v st nxt l).1.min_leaf_depth = st.min_leaf_depth := by
  cases l with
  | nil => simp [leftCheck]
  | node lv a b => simp only [leftCheck]; split_ifs <;> simp

theorem rightCheck_fst_is_bst (v : Int) (st : IState) (nxt : List BTree)
    (r : BTree) : (rightCheck v st nxt r).1.is_bst = (st.is_bst && notLtB v r) := by
  cases r with
  | nil => simp [rightCheck, notLtB]
  | node rv a b => simp only [rightCheck, notLtB]; split_ifs <;> simp <;> omega

theorem rightCheck_fst_is_ascending (v : Int) (st : IState) (nxt : List BTree)
    (r : BTree) :
    (rightCheck v st nxt r).1.is_ascending = (st.is_ascending && notLtB v r) := by
  cases r with
  | nil => simp [rightCheck, notLtB]
  | node rv a b => simp only [rightCheck, notLtB]; split_ifs <;> simp <;> omega

theorem rightCheck_fst_is_descending (v : Int) (st : IState) (nxt : List BTree)
    (r : BTree) :
    (rightCheck v st nxt r).1.is_descending = (st.is_descending && notGtB v r) := by
  cases r with
  | nil => simp [rightCheck, notGtB]
  | node rv a b => simp only [rightCheck, notGtB]; split_ifs <;> simp

theorem rightCheck_fst_is_left_padded (v : Int) (st : IState) (nxt : List BTree)
    (r : BTree) : (rightCheck v st nxt r).1.is_left_padded = st.is_left_padded := by
  cases r with
  | nil => simp [rightCheck]
  | node rv a b => simp only [rightCheck]; split_ifs <;> simp

theorem rightCheck_fst_min_leaf_depth (v : Int) (st : IState) (nxt : List BTree)
    (r : BTree) : (rightCheck v st nxt r).1.min_leaf_depth = st.min_leaf_depth := by
  cases r with
  | nil => simp [rightCheck]
  | node rv a b => simp only [rightCheck]; split_ifs <;> simp

theorem stepNode_is_bst (d : Int) (st : IState) (enc : Bool) (nxt : List BTree)
    (t : BTree) :
    ((stepNode d (st, enc, nxt) t).1).is_bst = (st.is_bst && bstEdgeOk t) := by
  cases t with
  | nil => simp [stepNode, bstEdgeOk]
  | node v l r =>
    simp only [stepNode, rightCheck_fst_is_bst, leftCheck_fst_is_bst, bstEdgeOk]
    split_ifs <;> simp [Bool.and_assoc]

theorem stepNode_is_ascending (d : Int) (st : IState) (enc : Bool)
    (nxt : List BTree) (t : BTree) :
    ((stepNode d (st, enc, nxt) t).1).is_ascending =
      (st.is_ascending && ascEdgeOk t) := by
  cases t with
  | nil => simp [stepNode, ascEdgeOk]
  | node v l r =>
    simp only [stepNode, rightCheck_fst_is_ascending, leftCheck_fst_is_ascending,
      ascEdgeOk]
    split_ifs <;> simp [Bool.and_assoc]

theorem stepNode_is_descending (d : Int) (st : IState) (enc : Bool)
    (nxt : List BTree) (t : BTree) :
    ((stepNode d (st, enc, nxt) t).1).is_descending =
      (st.is_descending && descEdgeOk t) := by
  cases t with
  | nil => simp [stepNode, descEdgeOk]
  | node v l r =>
    simp only [stepNode, rightCheck_fst_is_descending, leftCheck_fst_is_descending,
      descEdgeOk]
    split_ifs <;> simp [Bool.and_assoc]

theorem stepNode_full (d : Int) (st : IState) (nxt : List BTree)
    {v : Int} {l r : BTree} (hl : l ≠ .nil) (hr : r ≠ .nil) :
    (stepNode d (st, false, nxt) (.node v l r)).2.1 = false ∧
    ((stepNode d (st, false, nxt) (.node v l r)).1).is_left_padded =
      st.is_left_padded ∧
    ((stepNode d (st, false, nxt) (.node v l r)).1).min_leaf_depth =
      st.min_leaf_depth := by
  cases l with
  | nil => exact absurd rfl hl
  | node lv ll lr =>
    cases r with
    | nil => exact absurd rfl hr
    | node rv rl rr =>
      simp only [stepNode, rightCheck_fst_is_left_padded, leftCheck_fst_is_left_padded,
        rightCheck_fst_min_leaf_depth, leftCheck_fst_min_leaf_depth,
        padStep_node]
      refine ⟨trivial, ?_, ?_⟩ <;> (split_ifs <;> simp_all)

theorem stepNode_leaf (d : Int) (st : IState) (enc : Bool) (nxt : List BTree)
    (v : Int) :
    (stepNode d (st, enc, nxt) (.node v .nil .nil)).2.1 = true ∧
    ((stepNode d (st, enc, nxt) (.node v .nil .nil)).1).is_left_padded =
      st.is_left_padded ∧
    ((stepNode d (st, enc, nxt) (.node v .nil .nil)).1).min_leaf_depth =
      (if st.min_leaf_depth = 0 then d else st.min_leaf_depth) := by
  simp only [stepNode, rightCheck_fst_is_left_padded, leftCheck_fst_is_left_padded,
    rightCheck_fst_min_leaf_depth, leftCheck_fst_min_leaf_depth, padStep_nil]
  refine ⟨trivial, ?_, ?_⟩ <;> (split_ifs <;> simp_all)

/-! ### Level and loop lemmas for the inspection flags -/

theorem procLevel_is_bst (d : Int) (ns : List BTree) :
    ∀ (st : IState) (enc : Bool) (nxt : List BTree),
      ((procLevel d st enc nxt ns).1).is_bst = (st.is_bst && ns.all bstEdgeOk) := by
  induction ns with
  | nil =>
    intro st enc nxt
    simp [procLevel]
  | cons t ts ih =>
    intro st enc nxt
    rw [procLevel, ih, stepNode_is_bst]
    simp [Bool.and_assoc]

theorem procLevel_is_ascending (d : Int) (ns : List BTree) :
    ∀ (st : IState) (enc : Bool) (nxt : List BTree),
      ((procLevel d st enc nxt ns).1).is_ascending =
        (st.is_ascending && ns.all ascEdgeOk) := by
  induction ns with
  | nil =>
    intro st enc nxt
    simp [procLevel]
  | cons t ts ih =>
    intro st enc nxt
    rw [procLevel, ih, stepNode_is_ascending]
    simp [Bool.and_assoc]

theorem procLevel_is_descending (d : Int) (ns : List BTree) :
    ∀ (st : IState) (enc : Bool) (nxt : List BTree),
      ((procLevel d st enc nxt ns).1).is_descending =
        (st.is_descending && ns.all descEdgeOk) := by
  induction ns with
  | nil =>
    intro st enc nxt
    simp [procLevel]
  | cons t ts ih =>
    intro st enc nxt
    rw [procLevel, ih, stepNode_is_descending]
    simp [Bool.and_assoc]

theorem fullNodeB_spec {t : BTree} (h : fullNodeB t = true) :
    ∃ v l r, t = .node v l r ∧ l ≠ .nil ∧ r ≠ .nil := by
  cases t with
  | nil => simp [fullNodeB] at h
  | node v l r =>
    cases l with
    | nil => simp [fullNodeB] at h
    | node lv ll lr =>
      cases r with
      | nil => simp [fullNodeB] at h
      | node rv rl rr =>
        exact ⟨v, _, _, rfl, fun hc => BTree.noConfusion hc,
          fun hc => BTree.noConfusion hc⟩

theorem leafB_spec {t : BTree} (h : leafB t = true) :
    ∃ v, t = .node v .nil .nil := by
  cases t with
  | nil => simp [leafB] at h
  | node v l r =>
    cases l with
    | nil =>
      cases r with
      | nil => exact ⟨v, rfl⟩
      | node _ _ _ => simp [leafB] at h
    | node _ _ _ => simp [leafB] at h

theorem realChildren_leaf (v : Int) : realChildren (.node v .nil .nil) = [] := rfl

theorem realChildren_full {v : Int} {l r : BTree} (hl : l ≠ .nil) (hr : r ≠ .nil) :
    realChildren (.node v l r) = [l, r] := by
  cases l with
  | nil => exact absurd rfl hl
  | node lv ll lr =>
    cases r with
    | nil => exact absurd rfl hr
    | node rv rl rr => rfl

theorem procLevel_full_level (d : Int) (ns : List BTree) :
    ns.all fullNodeB = true → ∀ (st : IState) (nxt : List BTree),
      ((procLevel d st false nxt ns).1).is_left_padded = st.is_left_padded ∧
      ((procLevel d st false nxt ns).1).min_leaf_depth = st.min_leaf_depth ∧
      (procLevel d st false nxt ns).2.1 = false := by
  induction ns with
  | nil =>
    intro _ st nxt
    exact ⟨rfl, rfl, rfl⟩
  | cons t ts ih =>
    intro hfull st nxt
    rw [List.all_cons, Bool.and_eq_true] at hfull
    obtain ⟨v, l, r, ht, hl, hr⟩ := fullNodeB_spec hfull.1
    subst ht
    rw [procLevel]
    have hstep := @stepNode_full d st nxt v l r hl hr
    rw [hstep.1]
    obtain ⟨h1, h2, h3⟩ := ih hfull.2 (stepNode d (st, false, nxt) (.node v l r)).1
      (stepNode d (st, false, nxt) (.node v l r)).2.2
    exact ⟨by rw [h1, hstep.2.1], by rw [h2, hstep.2.2], h3⟩

theorem procLevel_leaves_lp (d : Int) (ns : List BTree) :
    ns.all leafB = true → ∀ (st : IState) (enc : Bool) (nxt : List BTree),
      ((procLevel d st enc nxt ns).1).is_left_padded = st.is_left_padded := by
  induction ns with
  | nil =>
    intro _ st enc nxt
    rfl
  | cons t ts ih =>
    intro hlf st enc nxt
    rw [List.all_cons, Bool.and_eq_true] at hlf
    obtain ⟨v, ht⟩ := leafB_spec hlf.1
    subst ht
    rw [procLevel, ih hlf.2]
    exact (stepNode_leaf d st enc nxt v).2.1

theorem procLevel_leaves_min_ne (d : Int) (ns : List BTree) :
    ns.all leafB = true → ∀ (st : IState) (enc : Bool) (nxt : List BTree),
      st.min_leaf_depth ≠ 0 →
      ((procLevel d st enc nxt ns).1).min_leaf_depth = st.min_leaf_depth := by
  induction ns with
  | nil =>
    intro _ st enc nxt _
    rfl
  | cons t ts ih =>
    intro hlf st enc nxt hmin
    rw [List.all_cons, Bool.and_eq_true] at hlf
    obtain ⟨v, ht⟩ := leafB_spec hlf.1
    subst ht
    have hstep := (stepNode_leaf d st enc nxt v).2.2
    rw [if_neg hmin] at hstep
    rw [procLevel, ih hlf.2 _ _ _ (by rw [hstep]; exact hmin), hstep]

theorem procLevel_leaves_min_z (d : Int) (ns : List BTree) :
    ns.all leafB = true → ns ≠ [] → ∀ (st : IState) (enc : Bool) (nxt : List BTree),
      st.min_leaf_depth = 0 →
      ((procLevel d st enc nxt ns).1).min_leaf_depth = d := by
  induction ns with
  | nil =>
    intro _ hne
    exact absurd rfl hne
  | cons t ts ih =>
    intro hlf _ st enc nxt hmin
    rw [List.all_cons, Bool.and_eq_true] at hlf
    obtain ⟨v, ht⟩ := leafB_spec hlf.1
    subst ht
    have hstep := (stepNode_leaf d st enc nxt v).2.2
    rw [if_pos hmin] at hstep
    rw [procLevel]
    cases ts with
    | nil =>
      rw [procLevel]
      exact hstep
    | cons t2 ts2 =>
      by_cases hd : d = 0
      · exact ih hlf.2 (by exact fun hc => List.noConfusion hc) _ _ _
          (by rw [hstep, hd])
      · rw [procLevel_leaves_min_ne d (t2 :: ts2) hlf.2 _ _ _
          (by rw [hstep]; exact hd), hstep]

theorem flatMap_realChildren_leaves (ns : List BTree) (h : ns.all leafB = true) :
    ns.flatMap realChildren = [] := by
  induction ns with
  | nil => rfl
  | cons t ts ih =>
    rw [List.all_cons, Bool.and_eq_true] at h
    obtain ⟨v, ht⟩ := leafB_spec h.1
    subst ht
    rw [List.flatMap_cons, realChildren_leaf, List.nil_append]
    exact ih h.2

/-! ### Perfect trees -/

/-- A perfect tree of height `m`: every level fully filled. -/
def isPerfect : BTree → Nat → Bool
  | .node _ .nil .nil, 0 => true
  | .node _ l r, m+1 => isPerfect l m && isPerfect r m
  | _, _ => false

theorem isPerfect_zero {t : BTree} (h : isPerfect t 0 = true) : leafB t = true := by
  cases t with
  | nil => simp [isPerfect] at h
  | node v l r =>
    cases l with
    | nil =>
      cases r with
      | nil => rfl
      | node _ _ _ => simp [isPerfect] at h
    | node _ _ _ =>
      cases r <;> simp [isPerfect] at h

theorem isPerfect_succ_spec {t : BTree} {m : Nat} (h : isPerfect t (m+1) = true) :
    ∃ v l r, t = .node v l r ∧ isPerfect l m = true ∧ isPerfect r m = true := by
  cases t with
  | nil => simp [isPerfect] at h
  | node v l r =>
    rw [isPerfect, Bool.and_eq_true] at h
    exact ⟨v, l, r, rfl, h.1, h.2⟩

theorem isPerfect_ne_nil {t : BTree} {m : Nat} (h : isPerfect t m = true) :
    t ≠ .nil := by
  cases t with
  | nil => cases m <;> simp [isPerfect] at h
  | node v l r => exact fun hc => BTree.noConfusion hc

theorem isPerfect_full {t : BTree} {m : Nat} (h : isPerfect t (m+1) = true) :
    fullNodeB t = true := by
  obtain ⟨v, l, r, ht, hl, hr⟩ := isPerfect_succ_spec h
  subst ht
  have hln := isPerfect_ne_nil hl
  have hrn := isPerfect_ne_nil hr
  cases l with
  | nil => exact absurd rfl hln
  | node _ _ _ =>
    cases r with
    | nil => exact absurd rfl hrn
    | node _ _ _ => rfl

theorem all_perfect_children (ns : List BTree) (m : Nat)
    (h : ns.all (fun t => isPerfect t (m+1)) = true) :
    (ns.flatMap realChildren).all (fun t => isPerfect t m) = true := by
  induction ns with
  | nil => rfl
  | cons t ts ih =>
    rw [List.all_cons, Bool.and_eq_true] at h
    obtain ⟨v, l, r, ht, hl, hr⟩ := isPerfect_succ_spec h.1
    subst ht
    rw [List.flatMap_cons, List.all_append,
      realChildren_full (isPerfect_ne_nil hl) (isPerfect_ne_nil hr)]
    rw [ih h.2]
    simp [hl, hr]

theorem theight_isPerfect : ∀ (m : Nat) (t : BTree), isPerfect t m = true →
    theight t = m := by
  intro m
  induction m with
  | zero =>
    intro t h
    obtain ⟨v, ht⟩ := leafB_spec (isPerfect_zero h)
    subst ht
    simp [theight]
  | succ m ih =>
    intro t h
    obtain ⟨v, l, r, ht, hl, hr⟩ := isPerfect_succ_spec h
    subst ht
    rw [theight, ih l hl, ih r hr]
    rw [max_self]
    push_cast
    ring

theorem isBalanced_isPerfect : ∀ (m : Nat) (t : BTree), isPerfect t m = true →
    _is_balanced t = m + 1 := by
  intro m
  induction m with
  | zero =>
    intro t h
    obtain ⟨v, ht⟩ := leafB_spec (isPerfect_zero h)
    subst ht
    simp [_is_balanced]
  | succ m ih =>
    intro t h
    obtain ⟨v, l, r, ht, hl, hr⟩ := isPerfect_succ_spec h
    subst ht
    rw [_is_balanced]
    simp only [ih l hl, ih r hr]
    rw [if_neg (by push_cast; simp; omega)]
    rw [max_self]
    push_cast
    ring

/-! ### Whole-loop characterizations -/

theorem bstLocal_decomp (t : BTree) :
    bstLocal t = (bstEdgeOk t && (realChildren t).all bstLocal) := by
  cases t with
  | nil => rfl
  | node v l r =>
    cases l <;> cases r <;>
      simp [bstLocal, realChildren, Bool.and_assoc, Bool.and_comm, Bool.and_left_comm]

theorem ascLocal_decomp (t : BTree) :
    ascLocal t = (ascEdgeOk t && (realChildren t).all ascLocal) := by
  cases t with
  | nil => rfl
  | node v l r =>
    cases l <;> cases r <;>
      simp [ascLocal, realChildren, Bool.and_assoc, Bool.and_comm, Bool.and_left_comm]

theorem descLocal_decomp (t : BTree) :
    descLocal t = (descEdgeOk t && (realChildren t).all descLocal) := by
  cases t with
  | nil => rfl
  | node v l r =>
    cases l <;> cases r <;>
      simp [descLocal, realChildren, Bool.and_assoc, Bool.and_comm, Bool.and_left_comm]

theorem all_bstLocal_decomp (ns : List BTree) :
    ns.all bstLocal =
      (ns.all bstEdgeOk && (ns.flatMap realChildren).all bstLocal) := by
  induction ns with
  | nil => rfl
  | cons t ts ih =>
    rw [List.all_cons, List.all_cons, List.flatMap_cons, List.all_append, ih,
      bstLocal_decomp t]
    simp [Bool.and_assoc, Bool.and_comm, Bool.and_left_comm]

theorem all_ascLocal_decomp (ns : List BTree) :
    ns.all ascLocal =
      (ns.all ascEdgeOk && (ns.flatMap realChildren).all ascLocal) := by
  induction ns with
  | nil => rfl
  | cons t ts ih =>
    rw [List.all_cons, List.all_cons, List.flatMap_cons, List.all_append, ih,
      ascLocal_decomp t]
    simp [Bool.and_assoc, Bool.and_comm, Bool.and_left_comm]

theorem all_descLocal_decomp (ns : List BTree) :
    ns.all descLocal =
      (ns.all descEdgeOk && (ns.flatMap realChildren).all descLocal) := by
  induction ns with
  | nil => rfl
  | cons t ts ih =>
    rw [List.all_cons, List.all_cons, List.flatMap_cons, List.all_append, ih,
      descLocal_decomp t]
    simp [Bool.and_assoc, Bool.and_comm, Bool.and_left_comm]

theorem mu_next_le (t : BTree) (ts : List BTree) :
    2 * sumSizes ((t :: ts).flatMap realChildren) +
      ((t :: ts).flatMap realChildren).length + 1 ≤
    2 * sumSizes (t :: ts) + (t :: ts).length := by
  have h1 := mu_flatMap_le (t :: ts)
  have h2 : 0 < (t :: ts).length := by simp
  omega

theorem inspectLoop_is_bst :
    ∀ (fuel : Nat) (ns : List BTree) (st : IState) (d : Int),
      2 * sumSizes ns + ns.length ≤ fuel →
      ((inspectLoop st d ns).1).is_bst = (st.is_bst && ns.all bstLocal) := by
  intro fuel
  induction fuel with
  | zero =>
    intro ns st d hfuel
    cases ns with
    | nil =>
      rw [inspectLoop]
      simp
    | cons t ts => simp at hfuel
  | succ fuel ih =>
    intro ns st d hfuel
    cases ns with
    | nil =>
      rw [inspectLoop]
      simp
    | cons t ts =>
      rw [inspectLoop]
      have hmu : 2 * sumSizes ((procLevel (d+1) st false [] (t :: ts)).2.2) +
          ((procLevel (d+1) st false [] (t :: ts)).2.2).length ≤ fuel := by
        rw [procLevel_next, List.nil_append]
        have := mu_next_le t ts
        omega
      rw [ih _ _ _ hmu, procLevel_is_bst, procLevel_next, List.nil_append]
      conv_rhs => rw [all_bstLocal_decomp (t :: ts)]
      simp [Bool.and_assoc]

theorem inspectLoop_is_ascending :
    ∀ (fuel : Nat) (ns : List BTree) (st : IState) (d : Int),
      2 * sumSizes ns + ns.length ≤ fuel →
      ((inspectLoop st d ns).1).is_ascending = (st.is_ascending && ns.all ascLocal) := by
  intro fuel
  induction fuel with
  | zero =>
    intro ns st d hfuel
    cases ns with
    | nil =>
      rw [inspectLoop]
      simp
    | cons t ts => simp at hfuel
  | succ fuel ih =>
    intro ns st d hfuel
    cases ns with
    | nil =>
      rw [inspectLoop]
      simp
    | cons t ts =>
      rw [inspectLoop]
      have hmu : 2 * sumSizes ((procLevel (d+1) st false [] (t :: ts)).2.2) +
          ((procLevel (d+1) st false [] (t :: ts)).2.2).length ≤ fuel := by
        rw [procLevel_next, List.nil_append]
        have := mu_next_le t ts
        omega
      rw [ih _ _ _ hmu, procLevel_is_ascending, procLevel_next, List.nil_append]
      conv_rhs => rw [all_ascLocal_decomp (t :: ts)]
      simp [Bool.and_assoc]

theorem inspectLoop_is_descending :
    ∀ (fuel : Nat) (ns : List BTree) (st : IState) (d : Int),
      2 * sumSizes ns + ns.length ≤ fuel →
      ((inspectLoop st d ns).1).is_descending =
        (st.is_descending && ns.all descLocal) := by
  intro fuel
  induction fuel with
  | zero =>
    intro ns st d hfuel
    cases ns with
    | nil =>
      rw [inspectLoop]
      simp
    | cons t ts => simp at hfuel
  | succ fuel ih =>
    intro ns st d hfuel
    cases ns with
    | nil =>
      rw [inspectLoop]
      simp
    | cons t ts =>
      rw [inspectLoop]
      have hmu : 2 * sumSizes ((procLevel (d+1) st false [] (t :: ts)).2.2) +
          ((procLevel (d+1) st false [] (t :: ts)).2.2).length ≤ fuel := by
        rw [procLevel_next, List.nil_append]
        have := mu_next_le t ts
        omega
      rw [ih _ _ _ hmu, procLevel_is_descending, procLevel_next, List.nil_append]
      conv_rhs => rw [all_descLocal_decomp (t :: ts)]
      simp [Bool.and_assoc]

/-! ### The height computed by the loop -/

/-- Maximum height over a level (`-1` for an empty level). -/
def maxH (ns : List BTree) : Int :=
  ns.foldr (fun t m => max (theight t) m) (-1)

theorem maxH_ge (ns : List BTree) : -1 ≤ maxH ns := by
  induction ns with
  | nil => simp [maxH]
  | cons t ts ih =>
    have := theight_ge_neg_one t
    rw [maxH, List.foldr_cons]
    rw [maxH] at ih
    omega

theorem maxH_cons (t : BTree) (ts : List BTree) :
    maxH (t :: ts) = max (theight t) (maxH ts) := rfl

theorem foldr_max_base (ns : List BTree) (m : Int) (hm : -1 ≤ m) :
    ns.foldr (fun t mm => max (theight t) mm) m = max (maxH ns) m := by
  induction ns with
  | nil =>
    rw [List.foldr_nil, maxH, List.foldr_nil]
    omega
  | cons t ts ih =>
    rw [List.foldr_cons, ih, maxH_cons]
    omega

theorem maxH_append (a b : List BTree) : maxH (a ++ b) = max (maxH a) (maxH b) := by
  rw [maxH, List.foldr_append]
  exact foldr_max_base a (maxH b) (maxH_ge b)

theorem maxH_realChildren (v : Int) (l r : BTree) :
    maxH (realChildren (.node v l r)) = theight (.node v l r) - 1 := by
  cases l with
  | nil =>
    cases r with
    | nil =>
      simp [realChildren, maxH, theight]
    | node rv rl rr =>
      have := theight_nonneg (v := rv) (l := rl) (r := rr)
      simp only [realChildren, maxH, List.foldr, theight]
      have h2 := theight_ge_neg_one rl
      have h3 := theight_ge_neg_one rr
      omega
  | node lv ll lr =>
    have := theight_nonneg (v := lv) (l := ll) (r := lr)
    cases r with
    | nil =>
      simp only [realChildren, maxH, List.foldr, theight]
      have h2 := theight_ge_neg_one ll
      have h3 := theight_ge_neg_one lr
      omega
    | node rv rl rr =>
      have h4 := theight_nonneg (v := rv) (l := rl) (r := rr)
      simp only [realChildren, maxH, List.foldr, theight]
      have h2 := theight_ge_neg_one ll
      have h3 := theight_ge_neg_one lr
      have h5 := theight_ge_neg_one rl
      have h6 := theight_ge_neg_one rr
      omega

theorem maxH_flatMap (ns : List BTree) (hne : ns ≠ [])
    (hreal : ns.all isRealNode = true) :
    maxH (ns.flatMap realChildren) = maxH ns - 1 := by
  induction ns with
  | nil => exact absurd rfl hne
  | cons t ts ih =>
    rw [List.all_cons, Bool.and_eq_true] at hreal
    have hnode : ∃ v l r, t = .node v l r := by
      cases t with
      | nil => simp [isRealNode] at hreal
      | node v l r => exact ⟨v, l, r, rfl⟩
    obtain ⟨v, l, r, ht⟩ := hnode
    subst ht
    cases ts with
    | nil =>
      rw [List.flatMap_cons, List.flatMap_nil, List.append_nil, maxH_realChildren,
        maxH_cons]
      have h1 := theight_nonneg (v := v) (l := l) (r := r)
      rw [maxH]
      simp only [List.foldr_nil]
      omega
    | cons t2 ts2 =>
      rw [List.flatMap_cons, maxH_append, maxH_realChildren,
        ih (fun hc => List.noConfusion hc) hreal.2,
        maxH_cons (BTree.node v l r) (t2 :: ts2)]
      have h1 := theight_nonneg (v := v) (l := l) (r := r)
      have h2 := maxH_ge (t2 :: ts2)
      omega

theorem all_real_flatMap (ns : List BTree) :
    (ns.flatMap realChildren).all isRealNode = true := by
  induction ns with
  | nil => rfl
  | cons t ts ih =>
    rw [List.flatMap_cons, List.all_append, ih, Bool.and_true]
    cases t with
    | nil => rfl
    | node v l r =>
      cases l <;> cases r <;> simp [realChildren, isRealNode]

theorem inspectLoop_height :
    ∀ (fuel : Nat) (ns : List BTree) (st : IState) (d : Int),
      2 * sumSizes ns + ns.length ≤ fuel → ns ≠ [] →
      ns.all isRealNode = true →
      (inspectLoop st d ns).2 = d + 1 + maxH ns := by
  intro fuel
  induction fuel with
  | zero =>
    intro ns st d hfuel hne _
    cases ns with
    | nil => exact absurd rfl hne
    | cons t ts => simp at hfuel
  | succ fuel ih =>
    intro ns st d hfuel hne hreal
    cases ns with
    | nil => exact absurd rfl hne
    | cons t ts =>
      rw [inspectLoop]
      have hrw : (procLevel (d+1) st false [] (t :: ts)).2.2 =
          (t :: ts).flatMap realChildren := by
        rw [procLevel_next, List.nil_append]
      cases hnext : (t :: ts).flatMap realChildren with
      | nil =>
        rw [hrw, hnext, inspectLoop]
        have hmh := maxH_flatMap (t :: ts) hne hreal
        rw [hnext] at hmh
        rw [maxH] at hmh
        simp only [List.foldr_nil] at hmh
        omega
      | cons n2 ns2 =>
        rw [hrw, hnext]
        have hmu : 2 * sumSizes (n2 :: ns2) + (n2 :: ns2).length ≤ fuel := by
          have := mu_next_le t ts
          rw [hnext] at this
          omega
        have hreal2 : (n2 :: ns2).all isRealNode = true := by
          rw [← hnext]
          exact all_real_flatMap (t :: ts)
        rw [ih (n2 :: ns2) _ (d+1) hmu (fun hc => List.noConfusion hc) hreal2]
        have hmh := maxH_flatMap (t :: ts) hne hreal
        rw [hnext] at hmh
        omega

theorem inspectLoop_perfect :
    ∀ (m : Nat) (ns : List BTree) (st : IState) (d : Int), ns ≠ [] →
      ns.all (fun t => isPerfect t m) = true →
      ((inspectLoop st d ns).1).is_left_padded = st.is_left_padded ∧
      ((inspectLoop st d ns).1).min_leaf_depth =
        (if st.min_leaf_depth = 0 then d + 1 + (m : Int)
         else st.min_leaf_depth) ∧
      (inspectLoop st d ns).2 = d + 1 + (m : Int) := by
  intro m
  induction m with
  | zero =>
    intro ns st d hne hperf
    have hleaf : ns.all leafB = true := by
      rw [List.all_eq_true] at hperf ⊢
      intro t htm
      exact isPerfect_zero (hperf t htm)
    cases ns with
    | nil => exact absurd rfl hne
    | cons t ts =>
      rw [inspectLoop]
      have hrw : (procLevel (d+1) st false [] (t :: ts)).2.2 = [] := by
        rw [procLevel_next, List.nil_append]
        exact flatMap_realChildren_leaves _ hleaf
      rw [hrw, inspectLoop]
      refine ⟨procLevel_leaves_lp (d+1) (t :: ts) hleaf st false [], ?_, by push_cast; ring⟩
      by_cases hmin : st.min_leaf_depth = 0
      · rw [if_pos hmin,
          procLevel_leaves_min_z (d+1) (t :: ts) hleaf
            (fun hc => List.noConfusion hc) st false [] hmin]
        push_cast
        ring
      · rw [if_neg hmin,
          procLevel_leaves_min_ne (d+1) (t :: ts) hleaf st false [] hmin]
  | succ m ih =>
    intro ns st d hne hperf
    have hfull : ns.all fullNodeB = true := by
      rw [List.all_eq_true] at hperf ⊢
      intro t htm
      exact isPerfect_full (hperf t htm)
    cases ns with
    | nil => exact absurd rfl hne
    | cons t ts =>
      rw [inspectLoop]
      have hrw : (procLevel (d+1) st false [] (t :: ts)).2.2 =
          (t :: ts).flatMap realChildren := by
        rw [procLevel_next, List.nil_append]
      have hperfc : ((t :: ts).flatMap realChildren).all
          (fun t => isPerfect t m) = true := by
        rw [List.all_eq_true] at hperf
        exact all_perfect_children (t :: ts) m (by
          rw [List.all_eq_true]
          exact hperf)
      have hnenext : (t :: ts).flatMap realChildren ≠ [] := by
        rw [List.all_eq_true] at hperf
        obtain ⟨v, l, r, ht, hl, hr⟩ :=
          isPerfect_succ_spec (hperf t (by simp))
        subst ht
        rw [List.flatMap_cons,
          realChildren_full (isPerfect_ne_nil hl) (isPerfect_ne_nil hr)]
        exact fun hc => List.noConfusion hc
      obtain ⟨hplp, hpmin, _⟩ :=
        procLevel_full_level (d+1) (t :: ts) hfull st []
      obtain ⟨hilp, himin, hid⟩ := ih ((t :: ts).flatMap realChildren)
        (procLevel (d+1) st false [] (t :: ts)).1 (d+1) hnenext hperfc
      rw [hrw]
      refine ⟨hilp.trans hplp, ?_, by rw [hid]; push_cast; ring⟩
      rw [himin, hpmin]
      by_cases hmin : st.min_leaf_depth = 0
      · rw [if_pos hmin, if_pos hmin]
        push_cast
        ring
      · rw [if_neg hmin, if_neg hmin]

/-! ### Generators

`_generate_values` draws `2^(height+1) - 1` distinct integers with
`random.sample`; the draw is modelled by quantifying over the resulting list
(`values`), and the `random() < 0.5` coin flips of `_random_insert` by a
stream `coins` with a cursor. -/

/-- `_bst_insert(root, value)`: the updated tree and the depth at which the
value was attached (a child of the root has depth 1).  The sentinel case is
unreachable: the generators only call it on a real root. -/
def _bst_insert : BTree → Int → BTree × Nat
  | .nil, _ => (.nil, 0)
  | .node x l r, v =>
    if x > v then
      match l with
      | .nil => (.node x (.node v .nil .nil) r, 1)
      | .node _ _ _ =>
        let res := _bst_insert l v
        (.node x res.1 r, res.2 + 1)
    else
      match r with
      | .nil => (.node x l (.node v .nil .nil), 1)
      | .node _ _ _ =>
        let res := _bst_insert r v
        (.node x l res.1, res.2 + 1)

/-- `_random_insert(root, value)`: as `_bst_insert` but the direction comes
from the coin stream; also returns the next coin cursor. -/
def _random_insert (coins : Nat → Bool) : Nat → BTree → Int → BTree × Nat × Nat
  | k, .nil, _ => (.nil, 0, k)
  | k, .node x l r, v =>
    if coins k then
      match l with
      | .nil => (.node x (.node v .nil .nil) r, 1, k+1)
      | .node _ _ _ =>
        let res := _random_insert coins (k+1) l v
        (.node x res.1 r, res.2.1 + 1, res.2.2)
    else
      match r with
      | .nil => (.node x l (.node v .nil .nil), 1, k+1)
      | .node _ _ _ =>
        let res := _random_insert coins (k+1) r v
        (.node x l res.1, res.2.1 + 1, res.2.2)

/-- The `for index in range(1, len(values))` loop of `tree(..., balanced=False)`:
insert each value, stopping once an insertion lands at depth `height`. -/
def treeLoop (coins : Nat → Bool) (height : Nat) : Nat → BTree → List Int → BTree
  | _, root, [] => root
  | k, root, v :: vs =>
    let res := _random_insert coins k root v
    if res.2.1 = height then res.1 else treeLoop coins height res.2.2 res.1 vs

/-- The insertion loop of `bst(height)`. -/
def bstLoop (height : Nat) : BTree → List Int → BTree
  | root, [] => root
  | root, v :: vs =>
    let res := _bst_insert root v
    if res.2 = height then res.1 else bstLoop height res.1 vs

/-- `tree(height, balanced)` on the sampled `values`. -/
def tree (height : Nat) (balanced : Bool) (values : List Int)
    (coins : Nat → Bool) : Except String BTree :=
  if balanced then _build_tree (values.map some)
  else
    match values with
    | [] => .error "IndexError: list index out of range"
    | v0 :: rest => .ok (treeLoop coins height 0 (.node v0 .nil .nil) rest)

/-- `bst(height)` on the sampled `values`. -/
def bst (height : Nat) (values : List Int) : Except String BTree :=
  match values with
  | [] => .error "IndexError: list index out of range"
  | v0 :: rest => .ok (bstLoop height (.node v0 .nil .nil) rest)

/-- `heap(height, max)`.  `heapq.heapify` is the only step performed outside
this repository; following the spec ("sorts the sampled values into heap
order"), `heapified` stands for the in-place heapified permutation of the
sampled values (of the negated values when `mx` is true), so that it
satisfies the array min-heap invariant `heapProp`. -/
def heap (height : Nat) (mx : Bool) (heapified : List Int) :
    Except String BTree :=
  if mx then _build_tree ((heapified.map (fun v => -v)).map some)
  else _build_tree (heapified.map some)

/-- The array min-heap invariant (the documented postcondition of
`heapq.heapify`). -/
def heapProp (w : List Int) : Prop :=
  ∀ k, k < w.length →
    (2*k+1 < w.length → w.getD k 0 ≤ w.getD (2*k+1) 0) ∧
    (2*k+2 < w.length → w.getD k 0 ≤ w.getD (2*k+2) 0)

instance (w : List Int) : Decidable (heapProp w) := by
  unfold heapProp
  infer_instance

/-! ### Height bounds for the insertion generators -/

theorem _bst_insert_spec (v : Int) :
    ∀ t : BTree, t ≠ .nil →
      (_bst_insert t v).1 ≠ .nil ∧
      1 ≤ (_bst_insert t v).2 ∧
      ((_bst_insert t v).2 : Int) ≤ theight t + 1 ∧
      theight (_bst_insert t v).1 = max (theight t) ((_bst_insert t v).2 : Int) := by
  intro t
  induction t with
  | nil => intro h; exact absurd rfl h
  | node x l r ihl ihr =>
    intro _
    rw [_bst_insert.eq_def]
    simp only []
    by_cases hc : x > v
    · rw [if_pos hc]
      cases l with
      | nil =>
        refine ⟨fun hcon => BTree.noConfusion hcon, by norm_num, ?_, ?_⟩ <;>
          (simp only [theight]
           have h1 := theight_ge_neg_one r
           push_cast
           omega)
      | node lv ll lr =>
        obtain ⟨hne, h1, h2, h3⟩ := ihl (fun hcon => BTree.noConfusion hcon)
        refine ⟨fun hcon => BTree.noConfusion hcon,
          Nat.succ_le_succ (Nat.zero_le _), ?_, ?_⟩ <;>
          (simp only [theight] at h2 h3 ⊢
           have h4 := theight_ge_neg_one r
           have h5 := theight_ge_neg_one ll
           have h6 := theight_ge_neg_one lr
           push_cast at h2 h3 ⊢
           omega)
    · rw [if_neg hc]
      cases r with
      | nil =>
        refine ⟨fun hcon => BTree.noConfusion hcon, by norm_num, ?_, ?_⟩ <;>
          (simp only [theight]
           have h1 := theight_ge_neg_one l
           push_cast
           omega)
      | node rv rl rr =>
        obtain ⟨hne, h1, h2, h3⟩ := ihr (fun hcon => BTree.noConfusion hcon)
        refine ⟨fun hcon => BTree.noConfusion hcon,
          Nat.succ_le_succ (Nat.zero_le _), ?_, ?_⟩ <;>
          (simp only [theight] at h2 h3 ⊢
           have h4 := theight_ge_neg_one l
           have h5 := theight_ge_neg_one rl
           have h6 := theight_ge_neg_one rr
           push_cast at h2 h3 ⊢
           omega)

theorem _random_insert_spec (coins : Nat → Bool) (v : Int) :
    ∀ (t : BTree) (k : Nat), t ≠ .nil →
      (_random_insert coins k t v).1 ≠ .nil ∧
      1 ≤ (_random_insert coins k t v).2.1 ∧
      ((_random_insert coins k t v).2.1 : Int) ≤ theight t + 1 ∧
      theight (_random_insert coins k t v).1 =
        max (theight t) ((_random_insert coins k t v).2.1 : Int) := by
  intro t
  induction t with
  | nil => intro k h; exact absurd rfl h
  | node x l r ihl ihr =>
    intro k _
    rw [_random_insert.eq_def]
    simp only []
    by_cases hc : coins k
    · rw [if_pos hc]
      cases l with
      | nil =>
        refine ⟨fun hcon => BTree.noConfusion hcon, by norm_num, ?_, ?_⟩ <;>
          (simp only [theight]
           have h1 := theight_ge_neg_one r
           push_cast
           omega)
      | node lv ll lr =>
        obtain ⟨hne, h1, h2, h3⟩ := ihl (k+1) (fun hcon => BTree.noConfusion hcon)
        refine ⟨fun hcon => BTree.noConfusion hcon,
          Nat.succ_le_succ (Nat.zero_le _), ?_, ?_⟩ <;>
          (simp only [theight] at h2 h3 ⊢
           have h4 := theight_ge_neg_one r
           have h5 := theight_ge_neg_one ll
           have h6 := theight_ge_neg_one lr
           push_cast at h2 h3 ⊢
           omega)
    · rw [if_neg hc]
      cases r with
      | nil =>
        refine ⟨fun hcon => BTree.noConfusion hcon, by norm_num, ?_, ?_⟩ <;>
          (simp only [theight]
           have h1 := theight_ge_neg_one l
           push_cast
           omega)
      | node rv rl rr =>
        obtain ⟨hne, h1, h2, h3⟩ := ihr (k+1) (fun hcon => BTree.noConfusion hcon)
        refine ⟨fun hcon => BTree.noConfusion hcon,
          Nat.succ_le_succ (Nat.zero_le _), ?_, ?_⟩ <;>
          (simp only [theight] at h2 h3 ⊢
           have h4 := theight_ge_neg_one l
           have h5 := theight_ge_neg_one rl
           have h6 := theight_ge_neg_one rr
           push_cast at h2 h3 ⊢
           omega)

theorem treeLoop_height (coins : Nat → Bool) (h : Nat) :
    ∀ (vs : List Int) (k : Nat) (t : BTree), t ≠ .nil → theight t + 1 ≤ h →
      theight (treeLoop coins h k t vs) ≤ h ∧ treeLoop coins h k t vs ≠ .nil := by
  intro vs
  induction vs with
  | nil =>
    intro k t htne hth
    rw [treeLoop]
    exact ⟨by omega, htne⟩
  | cons v vs ih =>
    intro k t htne hth
    rw [treeLoop]
    obtain ⟨hne, h1, h2, h3⟩ := _random_insert_spec coins v t k htne
    by_cases hd : (_random_insert coins k t v).2.1 = h
    · rw [if_pos hd]
      refine ⟨?_, hne⟩
      rw [h3, hd]
      omega
    · rw [if_neg hd]
      apply ih
      · exact hne
      · rw [h3]
        have : ((_random_insert coins k t v).2.1 : Int) ≠ (h : Int) := by
          exact_mod_cast fun hcon => hd (by exact_mod_cast hcon)
        omega

theorem bstLoop_height (h : Nat) :
    ∀ (vs : List Int) (t : BTree), t ≠ .nil → theight t + 1 ≤ h →
      theight (bstLoop h t vs) ≤ h ∧ bstLoop h t vs ≠ .nil := by
  intro vs
  induction vs with
  | nil =>
    intro t htne hth
    rw [bstLoop]
    exact ⟨by omega, htne⟩
  | cons v vs ih =>
    intro t htne hth
    rw [bstLoop]
    obtain ⟨hne, h1, h2, h3⟩ := _bst_insert_spec v t htne
    by_cases hd : (_bst_insert t v).2 = h
    · rw [if_pos hd]
      refine ⟨?_, hne⟩
      rw [h3, hd]
      omega
    · rw [if_neg hd]
      apply ih
      · exact hne
      · rw [h3]
        have : ((_bst_insert t v).2 : Int) ≠ (h : Int) := by
          exact_mod_cast fun hcon => hd (by exact_mod_cast hcon)
        omega

/-! ### The BST invariant maintained by `bst` -/

/-- The genuine binary-search-tree invariant. -/
def bstP : BTree → Prop
  | .nil => True
  | .node v l r =>
    (∀ y ∈ tvals l, y < v) ∧ (∀ y ∈ tvals r, v < y) ∧ bstP l ∧ bstP r

theorem mem_tvals_node {y v : Int} {l r : BTree} :
    y ∈ tvals (.node v l r) ↔ (y = v ∨ y ∈ tvals l ∨ y ∈ tvals r) := by
  rw [tvals]
  simp [List.mem_cons, List.mem_append]

theorem _bst_insert_tvals (v : Int) :
    ∀ t : BTree, t ≠ .nil →
      ∀ y, y ∈ tvals (_bst_insert t v).1 ↔ (y = v ∨ y ∈ tvals t) := by
  intro t
  induction t with
  | nil => intro h; exact absurd rfl h
  | node x l r ihl ihr =>
    intro _ y
    rw [_bst_insert.eq_def]
    simp only []
    by_cases hc : x > v
    · rw [if_pos hc]
      cases l with
      | nil =>
        simp only []
        simp [mem_tvals_node, tvals]
        tauto
      | node lv ll lr =>
        simp only []
        rw [mem_tvals_node, mem_tvals_node,
          ihl (fun hcon => BTree.noConfusion hcon) y]
        tauto
    · rw [if_neg hc]
      cases r with
      | nil =>
        simp only []
        simp [mem_tvals_node, tvals]
        tauto
      | node rv rl rr =>
        simp only []
        rw [mem_tvals_node, mem_tvals_node,
          ihr (fun hcon => BTree.noConfusion hcon) y]
        tauto

theorem _bst_insert_bstP (v : Int) :
    ∀ t : BTree, t ≠ .nil → bstP t → v ∉ tvals t →
      bstP (_bst_insert t v).1 := by
  intro t
  induction t with
  | nil => intro h; exact absurd rfl h
  | node x l r ihl ihr =>
    intro _ hbst hnv
    obtain ⟨hL, hR, hl, hr⟩ := hbst
    have hvx : v ≠ x := by
      intro hcon
      exact hnv (by rw [tvals, hcon]; exact List.mem_cons_self _ _)
    have hvl : v ∉ tvals l := by
      intro hcon
      exact hnv (by rw [tvals]; exact List.mem_cons_of_mem _ (List.mem_append_left _ hcon))
    have hvr : v ∉ tvals r := by
      intro hcon
      exact hnv (by rw [tvals]; exact List.mem_cons_of_mem _ (List.mem_append_right _ hcon))
    rw [_bst_insert.eq_def]
    simp only []
    by_cases hc : x > v
    · rw [if_pos hc]
      cases l with
      | nil =>
        refine ⟨?_, hR, ?_, hr⟩
        · intro y hy
          simp [tvals] at hy
          subst hy
          omega
        · exact ⟨by simp [tvals], by simp [tvals], trivial, trivial⟩
      | node lv ll lr =>
        refine ⟨?_, hR, ihl (fun hcon => BTree.noConfusion hcon) hl hvl, hr⟩
        intro y hy
        rw [_bst_insert_tvals v _ (fun hcon => BTree.noConfusion hcon) y] at hy
        rcases hy with hy | hy
        · subst hy; omega
        · exact hL y hy
    · rw [if_neg hc]
      have hxv : x < v := by omega
      cases r with
      | nil =>
        refine ⟨hL, ?_, hl, ?_⟩
        · intro y hy
          simp [tvals] at hy
          subst hy
          omega
        · exact ⟨by simp [tvals], by simp [tvals], trivial, trivial⟩
      | node rv rl rr =>
        refine ⟨hL, ?_, hl, ihr (fun hcon => BTree.noConfusion hcon) hr hvr⟩
        intro y hy
        rw [_bst_insert_tvals v _ (fun hcon => BTree.noConfusion hcon) y] at hy
        rcases hy with hy | hy
        · subst hy; omega
        · exact hR y hy

theorem bstLocal_of_bstP : ∀ t : BTree, bstP t → bstLocal t = true := by
  intro t
  induction t with
  | nil => intro _; rfl
  | node v l r ihl ihr =>
    intro hbst
    obtain ⟨hL, hR, hl, hr⟩ := hbst
    rw [bstLocal, bstEdgeOk, ihl hl, ihr hr]
    have h1 : notGtB v l = true := by
      cases l with
      | nil => rfl
      | node lv a b =>
        have := hL lv (by rw [tvals]; exact List.mem_cons_self _ _)
        rw [notGtB, if_neg (by omega)]
    have h2 : notLtB v r = true := by
      cases r with
      | nil => rfl
      | node rv a b =>
        have := hR rv (by rw [tvals]; exact List.mem_cons_self _ _)
        rw [notLtB, if_neg (by omega)]
    rw [h1, h2]
    rfl

theorem bstLoop_bstP (h : Nat) :
    ∀ (vs : List Int) (t : BTree), t ≠ .nil → bstP t →
      (∀ u ∈ vs, u ∉ tvals t) → vs.Nodup →
      bstP (bstLoop h t vs) ∧ bstLoop h t vs ≠ .nil := by
  intro vs
  induction vs with
  | nil =>
    intro t htne hbst _ _
    rw [bstLoop]
    exact ⟨hbst, htne⟩
  | cons v vs ih =>
    intro t htne hbst hnot hnd
    rw [bstLoop]
    have hvt : v ∉ tvals t := hnot v (List.mem_cons_self _ _)
    have hp := _bst_insert_bstP v t htne hbst hvt
    have hne := (_bst_insert_spec v t htne).1
    by_cases hd : (_bst_insert t v).2 = h
    · rw [if_pos hd]
      exact ⟨hp, hne⟩
    · rw [if_neg hd]
      rw [List.nodup_cons] at hnd
      apply ih _ hne hp _ hnd.2
      intro u hu
      rw [_bst_insert_tvals v t htne u]
      rintro (hcon | hcon)
      · subst hcon
        exact hnd.1 hu
      · exact hnot u (List.mem_cons_of_mem _ hu) hcon

/-! ### The heap invariant of `heap` -/

theorem getD_map_some1 (w : List Int) (i : Nat) :
    (w.map some).getD i none =
      if i < w.length then some (w.getD i 0) else none := by
  rw [List.getD_eq_getElem?_getD, List.getElem?_map]
  by_cases h : i < w.length
  · rw [if_pos h, List.getElem?_eq_getElem h]
    simp [List.getD_eq_getElem?_getD, List.getElem?_eq_getElem h]
  · rw [if_neg h, List.getElem?_eq_none (by omega)]
    rfl

theorem getD_map_some2 (w : List Int) (f : Int → Int) (i : Nat) :
    ((w.map f).map some).getD i none =
      if i < w.length then some (f (w.getD i 0)) else none := by
  rw [List.getD_eq_getElem?_getD, List.getElem?_map, List.getElem?_map]
  by_cases h : i < w.length
  · rw [if_pos h, List.getElem?_eq_getElem h]
    simp [List.getD_eq_getElem?_getD, List.getElem?_eq_getElem h]
  · rw [if_neg h, List.getElem?_eq_none (by omega)]
    rfl

theorem ascLocal_heap (w : List Int) (hp : heapProp w) :
    ∀ (m i : Nat), w.length - i ≤ m →
      ascLocal (subtreeAt (w.map some) i) = true := by
  intro m
  induction m with
  | zero =>
    intro i hm
    rw [subtreeAt_eq_nil]
    · rfl
    · rw [getD_map_some1, if_neg (by omega)]
  | succ m ih =>
    intro i hm
    cases hv : (w.map some).getD i none with
    | none =>
      rw [subtreeAt_eq_nil hv]
      rfl
    | some x =>
      have hil : i < w.length := by
        by_contra hcon
        rw [getD_map_some1, if_neg (by omega)] at hv
        exact Option.noConfusion hv
      have hx : x = w.getD i 0 := by
        rw [getD_map_some1, if_pos hil] at hv
        exact (Option.some.inj hv).symm
      rw [subtreeAt_eq_node hv, ascLocal, ascEdgeOk]
      rw [ih (2*i+1) (by omega), ih (2*i+2) (by omega)]
      have hedge : ∀ c : Nat, (c = 2*i+1 ∨ c = 2*i+2) →
          notLtB x (subtreeAt (w.map some) c) = true := by
        intro c hcs
        cases hc : subtreeAt (w.map some) c with
        | nil => rfl
        | node cv a b =>
          have htop := topVal_subtreeAt (w.map some) c
          rw [hc, topVal, getD_map_some1] at htop
          have hcl : c < w.length := by
            by_contra hcon
            rw [if_neg (by omega)] at htop
            exact Option.noConfusion htop
          rw [if_pos hcl] at htop
          have hcv : cv = w.getD c 0 := Option.some.inj htop
          have := hp i hil
          rw [notLtB, if_neg]
          rcases hcs with hcc | hcc <;>
            (subst hcc
             subst hcv
             subst hx
             omega)
      rw [hedge (2*i+1) (Or.inl rfl), hedge (2*i+2) (Or.inr rfl)]
      rfl

theorem descLocal_heap_neg (w : List Int) (hp : heapProp w) :
    ∀ (m i : Nat), w.length - i ≤ m →
      descLocal (subtreeAt ((w.map (fun v => -v)).map some) i) = true := by
  intro m
  induction m with
  | zero =>
    intro i hm
    rw [subtreeAt_eq_nil]
    · rfl
    · rw [getD_map_some2, if_neg (by omega)]
  | succ m ih =>
    intro i hm
    cases hv : ((w.map (fun v => -v)).map some).getD i none with
    | none =>
      rw [subtreeAt_eq_nil hv]
      rfl
    | some x =>
      have hil : i < w.length := by
        by_contra hcon
        rw [getD_map_some2, if_neg (by omega)] at hv
        exact Option.noConfusion hv
      have hx : x = -(w.getD i 0) := by
        rw [getD_map_some2, if_pos hil] at hv
        exact (Option.some.inj hv).symm
      rw [subtreeAt_eq_node hv, descLocal, descEdgeOk]
      rw [ih (2*i+1) (by omega), ih (2*i+2) (by omega)]
      have hedge : ∀ c : Nat, (c = 2*i+1 ∨ c = 2*i+2) →
          notGtB x (subtreeAt ((w.map (fun v => -v)).map some) c) = true := by
        intro c hcs
        cases hc : subtreeAt ((w.map (fun v => -v)).map some) c with
        | nil => rfl
        | node cv a b =>
          have htop := topVal_subtreeAt ((w.map (fun v => -v)).map some) c
          rw [hc, topVal, getD_map_some2] at htop
          have hcl : c < w.length := by
            by_contra hcon
            rw [if_neg (by omega)] at htop
            exact Option.noConfusion htop
          rw [if_pos hcl] at htop
          have hcv : cv = -(w.getD c 0) := Option.some.inj htop
          have := hp i hil
          rw [notGtB, if_neg]
          rcases hcs with hcc | hcc <;>
            (subst hcc
             subst hcv
             subst hx
             omega)
      rw [hedge (2*i+1) (Or.inl rfl), hedge (2*i+2) (Or.inr rfl)]
      rfl

/-! ### Full sequences build perfect trees -/

theorem subtreeAt_perfect (vs : List (Option Int))
    (hall : ∀ j, j < vs.length → vs.getD j none ≠ none) :
    ∀ (d i : Nat), (i+2) * 2^d ≤ vs.length + 1 →
      vs.length + 1 ≤ (i+1) * 2^(d+1) →
      isPerfect (subtreeAt vs i) d = true := by
  intro d
  induction d with
  | zero =>
    intro i h1 h2
    rw [pow_zero, Nat.mul_one] at h1
    rw [pow_one] at h2
    have hi : i < vs.length := by omega
    cases hv : vs.getD i none with
    | none => exact absurd hv (hall i hi)
    | some x =>
      rw [subtreeAt_eq_node hv,
        subtreeAt_eq_nil (vs.getD_eq_default none (by omega)),
        subtreeAt_eq_nil (vs.getD_eq_default none (by omega))]
      rfl
  | succ d ih =>
    intro i h1 h2
    have hp1 : (2:Nat)^(d+1) = 2^d * 2 := pow_succ 2 d
    have hp2 : (2:Nat)^(d+2) = 2^(d+1) * 2 := pow_succ 2 (d+1)
    have h2le : (2:Nat) ≤ 2^(d+1) := by
      calc (2:Nat) = 2^1 := (pow_one 2).symm
      _ ≤ 2^(d+1) := Nat.pow_le_pow_right (by norm_num) (by omega)
    have hi : i < vs.length := by
      have := Nat.mul_le_mul_left (i+2) h2le
      omega
    cases hv : vs.getD i none with
    | none => exact absurd hv (hall i hi)
    | some x =>
      rw [subtreeAt_eq_node hv, isPerfect]
      have hee : (2:Nat)^(d+1+1) = 2^(d+2) := by norm_num
      rw [hee] at h2
      have e2 : (2*i+4) * 2^d = (i+2) * 2^(d+1) := by rw [hp1]; ring
      have e3 : (2*i+2) * 2^(d+1) = (i+1) * 2^(d+2) := by rw [hp2]; ring
      have hc1 := ih (2*i+1) (by
        have hmul := Nat.mul_le_mul_right (2^d) (show 2*i+1+2 ≤ 2*i+4 by omega)
        omega) (by
        have he1 : (2*i+1+1) * 2^(d+1) = (2*i+2) * 2^(d+1) := by
          have : 2*i+1+1 = 2*i+2 := by omega
          rw [this]
        rw [he1, e3]
        omega)
      have hc2 := ih (2*i+2) (by
        have he2 : (2*i+2+2) * 2^d = (2*i+4) * 2^d := by
          have : 2*i+2+2 = 2*i+4 := by omega
          rw [this]
        rw [he2, e2]
        omega) (by
        have he3 : (2*i+2+1) * 2^(d+1) = (2*i+3) * 2^(d+1) := by
          have : 2*i+2+1 = 2*i+3 := by omega
          rw [this]
        rw [he3]
        have hmul := Nat.mul_le_mul_right (2^(d+1)) (show 2*i+2 ≤ 2*i+3 by omega)
        omega)
      rw [hc1, hc2]
      rfl

/-! ### `_validate_tree`

The validator walks arbitrary objects: a visited object may be the sentinel,
a `Node` instance (whose `value` may itself be the sentinel), or anything
else.  `PyObj` models this object universe under the default configuration
(`_null = None`): `null` is `None`, `node` is a `Node` instance whose value
is an `Option Int` (with `none` for a sentinel value), and `strange` is any
object that is neither. -/

inductive PyObj where
  | null : PyObj
  | node (value : Option Int) (left right : PyObj) : PyObj
  | strange : PyObj
deriving DecidableEq, Repr

/-- Size measure for the validator's termination. -/
def psize : PyObj → Nat
  | .null => 0
  | .strange => 0
  | .node _ l r => 1 + psize l + psize r

def sumP (ns : List PyObj) : Nat := (ns.map psize).sum

/-- `next_nodes`: the children pushed by the `Node` instances of a level. -/
def vNext (ns : List PyObj) : List PyObj :=
  ns.flatMap fun t =>
    match t with
    | .node _ l r => [l, r]
    | _ => []

/-- One scan of `for node in current_nodes`: the error raised at the first
offending object, if any (a `Node` with a sentinel value raises
`NullValueError`, an object that is neither a `Node` nor the sentinel raises
`InvalidNodeError`; both are `ValueError`s in the source). -/
def levelScan (ns : List PyObj) : Option String :=
  ns.findSome? fun t =>
    match t with
    | .node v _ _ => if v = none then some "A node cannot have a null value" else none
    | .null => none
    | .strange => some "Found an invalid node in the tree"

theorem sumP_vNext (ns : List PyObj) :
    2 * sumP (vNext ns) + (vNext ns).length ≤ 2 * sumP ns := by
  induction ns with
  | nil => simp [vNext, sumP]
  | cons t ts ih =>
    have hsplit : vNext (t :: ts) = (match t with
      | PyObj.node _ l r => [l, r]
      | _ => []) ++ vNext ts := by
      simp [vNext]
    rw [hsplit]
    cases t with
    | null =>
      simp only [sumP, List.map_cons, List.sum_cons, List.nil_append,
        List.length_append, psize] at *
      omega
    | strange =>
      simp only [sumP, List.map_cons, List.sum_cons, List.nil_append,
        List.length_append, psize] at *
      omega
    | node v l r =>
      simp only [sumP, List.map_cons, List.map_append, List.sum_append,
        List.sum_cons, List.length_append, List.length_cons, List.map_nil,
        List.sum_nil, List.length_nil, psize] at *
      omega

/-- The `while current_nodes` loop of `_validate_tree`: scan the level,
raising at the first offending object, then walk the children. -/
def _validate_tree_loop (ns : List PyObj) : Except String Unit :=
  match ns with
  | [] => .ok ()
  | t :: ts =>
    match levelScan (t :: ts) with
    | some e => .error e
    | none => _validate_tree_loop (vNext (t :: ts))
termination_by 2 * sumP ns + ns.length
decreasing_by
  have h1 := sumP_vNext (t :: ts)
  have h2 : 0 < (t :: ts).length := by simp
  omega

/-- `_validate_tree(root)`: breadth-first validation walk. -/
def _validate_tree (root : PyObj) : Except String Unit :=
  _validate_tree_loop [root]

/-- Every object reachable from here (through `Node` children) is a `Node`
with a non-sentinel value, or the sentinel. -/
def cleanObj : PyObj → Bool
  | .null => true
  | .strange => false
  | .node v l r => !(v == none) && (cleanObj l && cleanObj r)

/-- Some reachable object is neither a `Node` nor the sentinel. -/
def hasStrange : PyObj → Bool
  | .null => false
  | .strange => true
  | .node _ l r => hasStrange l || hasStrange r

/-- Some reachable `Node` carries the sentinel as its value. -/
def hasNullNode : PyObj → Bool
  | .null => false
  | .strange => false
  | .node v l r => (v == none) || (hasNullNode l || hasNullNode r)

theorem levelScan_eq_none (ns : List PyObj) :
    levelScan ns = none ↔
      ∀ t ∈ ns, (match t with
        | PyObj.node v _ _ => v ≠ none
        | PyObj.null => True
        | PyObj.strange => False) := by
  rw [levelScan, List.findSome?_eq_none_iff]
  constructor
  · intro h t ht
    have := h t ht
    cases t with
    | null => trivial
    | strange => simp at this
    | node v l r =>
      simp only [] at this
      intro hcon
      rw [if_pos hcon] at this
      exact Option.noConfusion this
  · intro h t ht
    have := h t ht
    cases t with
    | null => rfl
    | strange => simp at this
    | node v l r =>
      simp only [] at this ⊢
      rw [if_neg this]

theorem validate_loop_ok_iff :
    ∀ (fuel : Nat) (ns : List PyObj), 2 * sumP ns + ns.length ≤ fuel →
      (_validate_tree_loop ns = .ok () ↔ ns.all cleanObj = true) := by
  intro fuel
  induction fuel with
  | zero =>
    intro ns hfuel
    cases ns with
    | nil =>
      rw [_validate_tree_loop]
      simp
    | cons t ts => simp at hfuel
  | succ fuel ih =>
    intro ns hfuel
    cases ns with
    | nil =>
      rw [_validate_tree_loop]
      simp
    | cons t ts =>
      rw [_validate_tree_loop]
      cases hscan : levelScan (t :: ts) with
      | some e =>
        simp only []
        constructor
        · intro hcon
          exact Except.noConfusion hcon
        · intro hall
          exfalso
          have hnone : levelScan (t :: ts) = none := by
            rw [levelScan_eq_none]
            intro u hu
            rw [List.all_eq_true] at hall
            have := hall u hu
            cases u with
            | null => trivial
            | strange => simp [cleanObj] at this
            | node v l r =>
              simp only [cleanObj, Bool.and_eq_true, Bool.not_eq_true'] at this
              simp only []
              intro hcon
              rw [hcon] at this
              simp at this
          rw [hscan] at hnone
          exact Option.noConfusion hnone
      | none =>
        simp only []
        have hmu : 2 * sumP (vNext (t :: ts)) + (vNext (t :: ts)).length ≤ fuel := by
          have := sumP_vNext (t :: ts)
          have h2 : 0 < (t :: ts).length := by simp
          omega
        rw [ih (vNext (t :: ts)) hmu]
        rw [levelScan_eq_none] at hscan
        constructor
        · intro hnext
          rw [List.all_eq_true] at hnext ⊢
          intro u hu
          cases u with
          | null => rfl
          | strange =>
            have := hscan PyObj.strange hu
            exact absurd this (by simp)
          | node v l r =>
            have hv := hscan (PyObj.node v l r) hu
            simp only [] at hv
            rw [cleanObj]
            have hlm : l ∈ vNext (t :: ts) := by
              rw [vNext, List.mem_flatMap]
              exact ⟨PyObj.node v l r, hu, by simp⟩
            have hrm : r ∈ vNext (t :: ts) := by
              rw [vNext, List.mem_flatMap]
              exact ⟨PyObj.node v l r, hu, by simp⟩
            rw [hnext l hlm, hnext r hrm]
            simp [hv]
        · intro hall
          rw [List.all_eq_true] at hall ⊢
          intro u hu
          rw [vNext, List.mem_flatMap] at hu
          obtain ⟨p, hp, hup⟩ := hu
          have hcp := hall p hp
          cases p with
          | null => simp at hup
          | strange => simp at hup
          | node v l r =>
            simp only [cleanObj, Bool.and_eq_true] at hcp
            simp only [List.mem_cons, List.not_mem_nil] at hup
            rcases hup with hup | hup | hup
            · rw [hup]; exact hcp.2.1
            · rw [hup]; exact hcp.2.2
            · exact absurd hup (by simp)

theorem levelScan_some_cases {ns : List PyObj} {e : String}
    (h : levelScan ns = some e) :
    (e = "A node cannot have a null value" ∧
      ∃ t ∈ ns, ∃ l r, t = PyObj.node none l r) ∨
    (e = "Found an invalid node in the tree" ∧ PyObj.strange ∈ ns) := by
  rw [levelScan] at h
  obtain ⟨t, ht, hte⟩ := List.exists_of_findSome?_eq_some h
  cases t with
  | null => simp at hte
  | strange =>
    simp only [] at hte
    right
    exact ⟨(Option.some.inj hte).symm, ht⟩
  | node v l r =>
    simp only [] at hte
    by_cases hv : v = none
    · rw [if_pos hv] at hte
      left
      refine ⟨(Option.some.inj hte).symm, PyObj.node v l r, ht, l, r, by rw [hv]⟩
    · rw [if_neg hv] at hte
      exact Option.noConfusion hte

theorem hasStrange_of_mem_vNext {ns : List PyObj} {u : PyObj}
    (hu : u ∈ vNext ns) (h : hasStrange u = true) :
    ∃ p ∈ ns, hasStrange p = true := by
  rw [vNext, List.mem_flatMap] at hu
  obtain ⟨p, hp, hup⟩ := hu
  refine ⟨p, hp, ?_⟩
  cases p with
  | null => simp at hup
  | strange => simp at hup
  | node v l r =>
    simp only [List.mem_cons, List.not_mem_nil] at hup
    rw [hasStrange]
    rcases hup with hup | hup | hup
    · rw [← hup, h]; rfl
    · rw [← hup, h]; simp
    · exact absurd hup (by simp)

theorem hasNullNode_of_mem_vNext {ns : List PyObj} {u : PyObj}
    (hu : u ∈ vNext ns) (h : hasNullNode u = true) :
    ∃ p ∈ ns, hasNullNode p = true := by
  rw [vNext, List.mem_flatMap] at hu
  obtain ⟨p, hp, hup⟩ := hu
  refine ⟨p, hp, ?_⟩
  cases p with
  | null => simp at hup
  | strange => simp at hup
  | node v l r =>
    simp only [List.mem_cons, List.not_mem_nil] at hup
    rw [hasNullNode]
    rcases hup with hup | hup | hup
    · rw [← hup, h]; simp
    · rw [← hup, h]; simp
    · exact absurd hup (by simp)

theorem validate_loop_error_cases :
    ∀ (fuel : Nat) (ns : List PyObj), 2 * sumP ns + ns.length ≤ fuel →
      ∀ e, _validate_tree_loop ns = .error e →
        (e = "A node cannot have a null value" ∧
          ∃ p ∈ ns, hasNullNode p = true) ∨
        (e = "Found an invalid node in the tree" ∧
          ∃ p ∈ ns, hasStrange p = true) := by
  intro fuel
  induction fuel with
  | zero =>
    intro ns hfuel e he
    cases ns with
    | nil =>
      rw [_validate_tree_loop] at he
      exact Except.noConfusion he
    | cons t ts => simp at hfuel
  | succ fuel ih =>
    intro ns hfuel e he
    cases ns with
    | nil =>
      rw [_validate_tree_loop] at he
      exact Except.noConfusion he
    | cons t ts =>
      rw [_validate_tree_loop] at he
      cases hscan : levelScan (t :: ts) with
      | some e2 =>
        rw [hscan] at he
        simp only [] at he
        have he2 : e2 = e := by
          cases he
          rfl
        subst he2
        rcases levelScan_some_cases hscan with ⟨hmsg, p, hp, l, r, hpe⟩ | ⟨hmsg, hp⟩
        · left
          refine ⟨hmsg, p, hp, ?_⟩
          rw [hpe, hasNullNode]
          simp
        · right
          refine ⟨hmsg, PyObj.strange, hp, rfl⟩
      | none =>
        rw [hscan] at he
        simp only [] at he
        have hmu : 2 * sumP (vNext (t :: ts)) + (vNext (t :: ts)).length ≤ fuel := by
          have := sumP_vNext (t :: ts)
          have h2 : 0 < (t :: ts).length := by simp
          omega
        rcases ih (vNext (t :: ts)) hmu e he with ⟨hmsg, p, hp, hnn⟩ | ⟨hmsg, p, hp, hst⟩
        · left
          obtain ⟨q, hq, hqn⟩ := hasNullNode_of_mem_vNext hp hnn
          exact ⟨hmsg, q, hq, hqn⟩
        · right
          obtain ⟨q, hq, hqn⟩ := hasStrange_of_mem_vNext hp hst
          exact ⟨hmsg, q, hq, hqn⟩

theorem cleanObj_false_of_hasStrange {t : PyObj} (h : hasStrange t = true) :
    cleanObj t = false := by
  induction t with
  | null => simp [hasStrange] at h
  | strange => rfl
  | node v l r ihl ihr =>
    rw [hasStrange, Bool.or_eq_true] at h
    rw [cleanObj]
    rcases h with h | h
    · rw [ihl h]
      simp
    · rw [ihr h]
      simp

theorem cleanObj_false_of_hasNullNode {t : PyObj} (h : hasNullNode t = true) :
    cleanObj t = false := by
  induction t with
  | null => simp [hasNullNode] at h
  | strange => rfl
  | node v l r ihl ihr =>
    rw [hasNullNode, Bool.or_eq_true, Bool.or_eq_true] at h
    rw [cleanObj]
    rcases h with h | h | h
    · rw [h]
      simp
    · rw [ihl h]
      simp
    · rw [ihr h]
      simp

theorem cleanObj_of_no_offender {t : PyObj} (hs : hasStrange t = false)
    (hn : hasNullNode t = false) : cleanObj t = true := by
  induction t with
  | null => rfl
  | strange => simp [hasStrange] at hs
  | node v l r ihl ihr =>
    rw [hasStrange, Bool.or_eq_false_iff] at hs
    rw [hasNullNode, Bool.or_eq_false_iff, Bool.or_eq_false_iff] at hn
    rw [cleanObj, ihl hs.1 hn.2.1, ihr hs.2 hn.2.2, hn.1]
    rfl

/-! ### `inspectTree` on a real root -/

theorem inspectTree_ok (v : Int) (l r : BTree) :
    inspectTree (.node v l r) = .ok
      { is_height_balanced := decide ((inspectLoop initIState (-1) [.node v l r]).2 -
          ((inspectLoop initIState (-1) [.node v l r]).1).min_leaf_depth < 2),
        is_weight_balanced := decide (0 ≤ _is_balanced (.node v l r)),
        is_max_heap := ((inspectLoop initIState (-1) [.node v l r]).1).is_descending &&
          ((inspectLoop initIState (-1) [.node v l r]).1).is_left_padded &&
          decide (0 ≤ _is_balanced (.node v l r)),
        is_min_heap := ((inspectLoop initIState (-1) [.node v l r]).1).is_ascending &&
          ((inspectLoop initIState (-1) [.node v l r]).1).is_left_padded &&
          decide (0 ≤ _is_balanced (.node v l r)),
        is_bst := ((inspectLoop initIState (-1) [.node v l r]).1).is_bst,
        height := (inspectLoop initIState (-1) [.node v l r]).2,
        leaf_count := ((inspectLoop initIState (-1) [.node v l r]).1).leaf_count,
        node_count := ((inspectLoop initIState (-1) [.node v l r]).1).node_count,
        min_leaf_depth := ((inspectLoop initIState (-1) [.node v l r]).1).min_leaf_depth,
        max_leaf_depth := (inspectLoop initIState (-1) [.node v l r]).2,
        min_value := ((inspectLoop initIState (-1) [.node v l r]).1).min_value,
        max_value := ((inspectLoop initIState (-1) [.node v l r]).1).max_value } := rfl

theorem maxH_single {t : BTree} (ht : t ≠ .nil) : maxH [t] = theight t := by
  have h0 : 0 ≤ theight t := by
    cases t with
    | nil => exact absurd rfl ht
    | node v l r => exact theight_nonneg
  rw [maxH, List.foldr_cons, List.foldr_nil]
  omega

theorem inspectTree_basic {t : BTree} (ht : t ≠ .nil) :
    ∃ res, inspectTree t = .ok res ∧ res.height = theight t ∧
      res.is_bst = bstLocal t := by
  cases t with
  | nil => exact absurd rfl ht
  | node v l r =>
    refine ⟨_, inspectTree_ok v l r, ?_, ?_⟩
    · show (inspectLoop initIState (-1) [.node v l r]).2 = theight (.node v l r)
      rw [inspectLoop_height (2 * sumSizes [.node v l r] + 1) _ _ _
        (by simp) (fun hc => List.noConfusion hc) (by simp [isRealNode])]
      rw [maxH_single (fun hc => BTree.noConfusion hc)]
      ring
    · show ((inspectLoop initIState (-1) [.node v l r]).1).is_bst =
        bstLocal (.node v l r)
      rw [inspectLoop_is_bst (2 * sumSizes [.node v l r] + 1) _ _ _ (by simp)]
      simp [initIState]

theorem inspectTree_perfect {t : BTree} {h : Nat} (hp : isPerfect t h = true) :
    ∃ res, inspectTree t = .ok res ∧
      res.is_weight_balanced = true ∧
      res.is_height_balanced = true ∧
      res.height = (h : Int) ∧
      res.is_min_heap = ((inspectLoop initIState (-1) [t]).1).is_ascending ∧
      res.is_max_heap = ((inspectLoop initIState (-1) [t]).1).is_descending := by
  have hbal : _is_balanced t = (h : Int) + 1 := isBalanced_isPerfect h t hp
  have hbal2 : decide (0 ≤ _is_balanced t) = true := by
    rw [hbal]
    rw [decide_eq_true_eq]
    positivity
  obtain ⟨hplp, hpmin, hpd⟩ := inspectLoop_perfect h [t] initIState (-1)
    (fun hc => List.noConfusion hc) (by simp [hp])
  cases t with
  | nil => exact absurd (isPerfect_ne_nil hp rfl) (fun hc => hc)
  | node v l r =>
    refine ⟨_, inspectTree_ok v l r, ?_, ?_, ?_, ?_, ?_⟩
    · show decide (0 ≤ _is_balanced (.node v l r)) = true
      exact hbal2
    · show decide ((inspectLoop initIState (-1) [.node v l r]).2 -
        ((inspectLoop initIState (-1) [.node v l r]).1).min_leaf_depth < 2) = true
      rw [hpd, hpmin]
      rw [if_pos (by rw [initIState])]
      rw [decide_eq_true_eq]
      omega
    · show (inspectLoop initIState (-1) [.node v l r]).2 = (h : Int)
      rw [hpd]
      ring
    · show (((inspectLoop initIState (-1) [.node v l r]).1).is_ascending &&
        ((inspectLoop initIState (-1) [.node v l r]).1).is_left_padded &&
        decide (0 ≤ _is_balanced (.node v l r))) =
        ((inspectLoop initIState (-1) [.node v l r]).1).is_ascending
      rw [hplp, hbal2]
      simp [initIState]
    · show (((inspectLoop initIState (-1) [.node v l r]).1).is_descending &&
        ((inspectLoop initIState (-1) [.node v l r]).1).is_left_padded &&
        decide (0 ≤ _is_balanced (.node v l r))) =
        ((inspectLoop initIState (-1) [.node v l r]).1).is_descending
      rw [hplp, hbal2]
      simp [initIState]

theorem inspectLoop_asc_single {t : BTree} :
    ((inspectLoop initIState (-1) [t]).1).is_ascending = ascLocal t := by
  rw [inspectLoop_is_ascending (2 * sumSizes [t] + 1) _ _ _ (by simp)]
  simp [initIState]

theorem inspectLoop_desc_single {t : BTree} :
    ((inspectLoop initIState (-1) [t]).1).is_descending = descLocal t := by
  rw [inspectLoop_is_descending (2 * sumSizes [t] + 1) _ _ _ (by simp)]
  simp [initIState]

/-! ### Remaining glue -/

theorem noOrphan_all_some {vs : List (Option Int)}
    (hall : ∀ j, j < vs.length → vs.getD j none ≠ none) : noOrphan vs := by
  intro i hi h1 _
  apply hall
  rw [parentIdx]
  omega

theorem perfect_of_full (w : List Int) (h : Nat)
    (hlen : w.length = 2^(h+1) - 1) :
    isPerfect (subtreeAt (w.map some) 0) h = true := by
  have hlen2 : (w.map some).length = 2^(h+1) - 1 := by
    rw [List.length_map]
    exact hlen
  have h2 : (1:Nat) ≤ 2^(h+1) := Nat.one_le_two_pow
  apply subtreeAt_perfect
  · intro j hj
    rw [getD_map_some1, if_pos (by rw [List.length_map] at hj; exact hj)]
    exact Option.noConfusion
  · rw [hlen2]
    have : (2:Nat) * 2^h = 2^(h+1) := by rw [pow_succ]; ring
    omega
  · rw [hlen2]
    omega

/-- The spec-side binary-search-tree test, following the claim: every node is
greater than everything in its left subtree and less than everything in its
right subtree, recursively. -/
def bstSpecB : BTree → Bool
  | .nil => true
  | .node v l r =>
    (tvals l).all (fun y => decide (y < v)) &&
    (tvals r).all (fun y => decide (v < y)) &&
    bstSpecB l && bstSpecB r

theorem bstLocal_of_bstSpecB : ∀ t : BTree, bstSpecB t = true → bstLocal t = true := by
  intro t
  induction t with
  | nil => intro _; rfl
  | node v l r ihl ihr =>
    intro hs
    rw [bstSpecB] at hs
    simp only [Bool.and_eq_true, List.all_eq_true] at hs
    obtain ⟨⟨⟨hL, hR⟩, hl⟩, hr⟩ := hs
    rw [bstLocal, bstEdgeOk, ihl hl, ihr hr]
    have h1 : notGtB v l = true := by
      cases l with
      | nil => rfl
      | node lv a b =>
        have := hL lv (by rw [tvals]; exact List.mem_cons_self _ _)
        rw [decide_eq_true_eq] at this
        rw [notGtB, if_neg (by omega)]
    have h2 : notLtB v r = true := by
      cases r with
      | nil => rfl
      | node rv a b =>
        have := hR rv (by rw [tvals]; exact List.mem_cons_self _ _)
        rw [decide_eq_true_eq] at this
        rw [notLtB, if_neg (by omega)]
    rw [h1, h2]
    rfl

theorem inspect_node {t : BTree} (ht : t ≠ .nil) :
    inspect (.node t) = inspectTree t := by
  cases t with
  | nil => exact absurd rfl ht
  | node v l r => rfl

/-- Building from a full flat sequence of `2^(h+1) - 1` values succeeds and
yields a perfect tree of height `h`. -/
theorem full_build (w : List Int) (h : Nat) (hwlen : w.length = 2^(h+1) - 1) :
    _build_tree (w.map some) = .ok (subtreeAt (w.map some) 0) ∧
    isPerfect (subtreeAt (w.map some) 0) h = true := by
  have h2 : (1:Nat) < 2^(h+1) := Nat.one_lt_two_pow_iff.mpr (by omega)
  have hall : ∀ j, j < (w.map some).length → (w.map some).getD j none ≠ none := by
    intro j hj
    rw [getD_map_some1, if_pos (by rw [List.length_map] at hj; exact hj)]
    exact Option.noConfusion
  refine ⟨_build_tree_eq_ok (hall 0 ?_) (noOrphan_all_some hall),
    perfect_of_full w h hwlen⟩
  rw [List.length_map, hwlen]
  omega

/-! ### The claims -/

/-- C2: `inspect([])` does not return an inspection record (with height `-1`,
zero counts and infinite sentinels); it fails.  `_build_tree([])` returns the
sentinel, and the first loop iteration reads `value` off it, raising
`AttributeError`. -/
theorem claim_C2 :
    inspect (.list []) =
      .error "AttributeError: NoneType object has no attribute value" := rfl

/-- Counterexample to C2: `inspect([])` is not a success at all, so in
particular it returns no record with `height = -1` and zero counts. -/
theorem claim_C2_counterexample : isOkE (inspect (.list [])) = false := rfl

/-- C3: for a well-formed flat sequence (trailing sentinels trimmed,
non-sentinel head when non-empty, no orphan position), building the tree
succeeds and serializing it restores the sequence:
`toFlatSequence (fromFlatSequence v) = v`. -/
theorem claim_C3 (vs : List (Option Int))
    (hhead : vs = [] ∨ vs.getD 0 none ≠ none)
    (hno : noOrphan vs)
    (hlast : vs.getLast? ≠ some none) :
    ∃ t, _build_tree vs = .ok t ∧ _build_list t = vs := by
  rcases hhead with hz | hne
  · subst hz
    exact ⟨.nil, rfl, _build_list_nil⟩
  · exact ⟨subtreeAt vs 0, _build_tree_eq_ok hne hno,
      build_list_subtreeAt hne hno hlast⟩

theorem claim_C3_witness :
    (([some 1, some 2, some 3, none, some 4] : List (Option Int)) = [] ∨
      ([some 1, some 2, some 3, none, some 4] : List (Option Int)).getD 0 none
        ≠ none) ∧
    noOrphan [some 1, some 2, some 3, none, some 4] ∧
    ([some 1, some 2, some 3, none, some 4] : List (Option Int)).getLast?
      ≠ some none ∧
    ∃ t, _build_tree [some 1, some 2, some 3, none, some 4] = .ok t ∧
      _build_list t = [some 1, some 2, some 3, none, some 4] :=
  ⟨by decide, by decide, by decide,
    claim_C3 _ (by decide) (by decide) (by decide)⟩

/-- C4: `_build_tree` raises `ValueError` exactly when the input is non-empty
with a sentinel at position 0, or some non-sentinel position at `i ≥ 1` has a
sentinel at its computed parent position `(i+1)/2 - 1`; in particular
`[None, None, 5]` raises. -/
theorem claim_C4 :
    (∀ vs : List (Option Int),
      (∃ e, _build_tree vs = .error e) ↔
        (vs ≠ [] ∧ (vs.getD 0 none = none ∨
          ∃ i, i < vs.length ∧ 1 ≤ i ∧ vs.getD i none ≠ none ∧
            vs.getD (parentIdx i) none = none))) ∧
    (∃ e, _build_tree [none, none, some 5] = .error e) := by
  constructor
  · intro vs
    rw [_build_tree_error_iff]
    have hiff : (¬ noOrphan vs) ↔ ∃ i, i < vs.length ∧ 1 ≤ i ∧
        vs.getD i none ≠ none ∧ vs.getD (parentIdx i) none = none := by
      rw [noOrphan]
      push_neg
      rfl
    rw [hiff]
  · exact ⟨"Node missing at index 0", rfl⟩

/-- C10: converting a valid non-empty tree to a flat sequence and rebuilding
restores the tree exactly (the tree-side round trip, implicit in the spec). -/
theorem claim_C10 (t : BTree) (ht : t ≠ .nil) :
    convert (.node t) = .ok (.list (_build_list t)) ∧
    _build_tree (_build_list t) = .ok t := by
  refine ⟨?_, build_tree_build_list ht⟩
  cases t with
  | nil => exact absurd rfl ht
  | node v l r => rfl

theorem claim_C10_witness :
    (BTree.node 1 (.node 2 .nil .nil) (.node 3 .nil .nil) ≠ .nil) ∧
    (convert (.node (.node 1 (.node 2 .nil .nil) (.node 3 .nil .nil))) =
      .ok (.list (_build_list
        (.node 1 (.node 2 .nil .nil) (.node 3 .nil .nil)))) ∧
    _build_tree (_build_list (.node 1 (.node 2 .nil .nil) (.node 3 .nil .nil)))
      = .ok (.node 1 (.node 2 .nil .nil) (.node 3 .nil .nil))) :=
  ⟨by decide, claim_C10 _ (by decide)⟩

/-- C5: on a heapified value list of the full size `2^(h+1) - 1` (the
documented postcondition of `heapq.heapify`), `heap(h, max=False)` produces a
tree with `is_min_heap` true, and `heap(h, max=True)` (whose heapified list
holds the negated sampled values) produces a tree with `is_max_heap` true. -/
theorem claim_C5 (h : Nat) (w : List Int)
    (hwlen : w.length = 2^(h+1) - 1) (hp : heapProp w) :
    (∃ t res, heap h false w = .ok t ∧ inspect (.node t) = .ok res ∧
      res.is_min_heap = true) ∧
    (∃ t res, heap h true w = .ok t ∧ inspect (.node t) = .ok res ∧
      res.is_max_heap = true) := by
  constructor
  · obtain ⟨hbuild, hperf⟩ := full_build w h hwlen
    obtain ⟨res, hres, _, _, _, hmin, _⟩ := inspectTree_perfect hperf
    have hne := isPerfect_ne_nil hperf
    refine ⟨_, res, hbuild, by rw [inspect_node hne]; exact hres, ?_⟩
    rw [hmin, inspectLoop_asc_single, ascLocal_heap w hp w.length 0 (by omega)]
  · obtain ⟨hbuild, hperf⟩ := full_build (w.map (fun v => -v)) h
      (by rw [List.length_map]; exact hwlen)
    obtain ⟨res, hres, _, _, _, _, hmax⟩ := inspectTree_perfect hperf
    have hne := isPerfect_ne_nil hperf
    refine ⟨_, res, hbuild, by rw [inspect_node hne]; exact hres, ?_⟩
    rw [hmax, inspectLoop_desc_single,
      descLocal_heap_neg w hp w.length 0 (by omega)]

theorem claim_C5_witness :
    ∃ t res, heap 1 false [0, 1, 2] = .ok t ∧ inspect (.node t) = .ok res ∧
      res.is_min_heap = true :=
  (claim_C5 1 [0, 1, 2] (by decide) (by decide)).1

/-- C6: on full-size sampled value lists, every tree produced by
`tree(h)`, `bst(h)` or `heap(h)` has reported height at most `h`, and
`heap(h)` and the complete-build path `tree(h, balanced=True)` reach height
exactly `h`, for every outcome of the random choices. -/
theorem claim_C6 (h : Nat) (values w : List Int) (coins : Nat → Bool)
    (hlen : values.length = 2^(h+1) - 1) (hwlen : w.length = 2^(h+1) - 1) :
    (∃ t res, tree h false values coins = .ok t ∧
      inspect (.node t) = .ok res ∧ res.height ≤ (h : Int)) ∧
    (∃ t res, bst h values = .ok t ∧
      inspect (.node t) = .ok res ∧ res.height ≤ (h : Int)) ∧
    (∃ t res, heap h false w = .ok t ∧
      inspect (.node t) = .ok res ∧ res.height = (h : Int)) ∧
    (∃ t res, tree h true values coins = .ok t ∧
      inspect (.node t) = .ok res ∧ res.height = (h : Int)) := by
  have hvne : values ≠ [] := by
    intro hcon
    rw [hcon] at hlen
    have h2 : (1:Nat) < 2^(h+1) := Nat.one_lt_two_pow_iff.mpr (by omega)
    simp at hlen
    omega
  obtain ⟨v0, rest, hv⟩ := List.exists_cons_of_ne_nil hvne
  subst hv
  have hrne : BTree.node v0 .nil .nil ≠ .nil := fun hc => BTree.noConfusion hc
  have hrh : theight (.node v0 .nil .nil) = 0 := by simp [theight]
  refine ⟨?_, ?_, ?_, ?_⟩
  · by_cases h0 : h = 0
    · subst h0
      have hre : rest = [] := by
        rw [List.length_cons] at hlen
        norm_num at hlen
        exact hlen
      subst hre
      obtain ⟨res, hres, hh, _⟩ := inspectTree_basic hrne
      exact ⟨.node v0 .nil .nil, res, rfl, by rw [inspect_node hrne]; exact hres,
        by rw [hh, hrh]; simp⟩
    · obtain ⟨hle, hne2⟩ := treeLoop_height coins h rest 0 (.node v0 .nil .nil)
        hrne (by rw [hrh]; omega)
      obtain ⟨res, hres, hh, _⟩ := inspectTree_basic hne2
      exact ⟨_, res, rfl, by rw [inspect_node hne2]; exact hres,
        by rw [hh]; exact hle⟩
  · by_cases h0 : h = 0
    · subst h0
      have hre : rest = [] := by
        rw [List.length_cons] at hlen
        norm_num at hlen
        exact hlen
      subst hre
      obtain ⟨res, hres, hh, _⟩ := inspectTree_basic hrne
      exact ⟨.node v0 .nil .nil, res, rfl, by rw [inspect_node hrne]; exact hres,
        by rw [hh, hrh]; simp⟩
    · obtain ⟨hle, hne2⟩ := bstLoop_height h rest (.node v0 .nil .nil)
        hrne (by rw [hrh]; omega)
      obtain ⟨res, hres, hh, _⟩ := inspectTree_basic hne2
      exact ⟨_, res, rfl, by rw [inspect_node hne2]; exact hres,
        by rw [hh]; exact hle⟩
  · obtain ⟨hbuild, hperf⟩ := full_build w h hwlen
    have hne := isPerfect_ne_nil hperf
    obtain ⟨res, hres, hh, _⟩ := inspectTree_basic hne
    exact ⟨_, res, hbuild, by rw [inspect_node hne]; exact hres,
      by rw [hh]; exact theight_isPerfect h _ hperf⟩
  · obtain ⟨hbuild, hperf⟩ := full_build (v0 :: rest) h hlen
    have hne := isPerfect_ne_nil hperf
    obtain ⟨res, hres, hh, _⟩ := inspectTree_basic hne
    exact ⟨_, res, hbuild, by rw [inspect_node hne]; exact hres,
      by rw [hh]; exact theight_isPerfect h _ hperf⟩

theorem claim_C6_witness :
    ∃ t res, heap 1 false [5, 6, 7] = .ok t ∧ inspect (.node t) = .ok res ∧
      res.height = (1 : Int) :=
  (claim_C6 1 [0, 1, 2] [5, 6, 7] (fun _ => false) (by decide)
    (by decide)).2.2.1

/-- C7: on a full-size list of distinct sampled values, `bst(h)` produces a
tree whose `is_bst` flag is true; and `_bst_insert` descends left exactly when
the inserted value is less than the current node's value, right otherwise. -/
theorem claim_C7 (h : Nat) (values : List Int)
    (hlen : values.length = 2^(h+1) - 1) (hnd : values.Nodup) :
    (∃ t res, bst h values = .ok t ∧ inspect (.node t) = .ok res ∧
      res.is_bst = true) ∧
    (∀ (x v : Int) (l r : BTree),
      (v < x → ∃ l2, (_bst_insert (.node x l r) v).1 = .node x l2 r) ∧
      (x ≤ v → ∃ r2, (_bst_insert (.node x l r) v).1 = .node x l r2)) := by
  constructor
  · have hvne : values ≠ [] := by
      intro hcon
      rw [hcon] at hlen
      have h2 : (1:Nat) < 2^(h+1) := Nat.one_lt_two_pow_iff.mpr (by omega)
      simp at hlen
      omega
    obtain ⟨v0, rest, hv⟩ := List.exists_cons_of_ne_nil hvne
    subst hv
    have hrne : BTree.node v0 .nil .nil ≠ .nil := fun hc => BTree.noConfusion hc
    have hroot : bstP (.node v0 .nil .nil) := by
      rw [bstP]
      exact ⟨by simp [tvals], by simp [tvals], trivial, trivial⟩
    rw [List.nodup_cons] at hnd
    have hnot : ∀ u ∈ rest, u ∉ tvals (.node v0 .nil .nil) := by
      intro u hu
      simp only [tvals, List.append_nil, List.mem_singleton]
      intro hcon
      subst hcon
      exact hnd.1 hu
    obtain ⟨hbp, hne2⟩ := bstLoop_bstP h rest (.node v0 .nil .nil)
      hrne hroot hnot hnd.2
    obtain ⟨res, hres, _, hb⟩ := inspectTree_basic hne2
    exact ⟨_, res, rfl, by rw [inspect_node hne2]; exact hres,
      by rw [hb]; exact bstLocal_of_bstP _ hbp⟩
  · intro x v l r
    constructor
    · intro hlt
      cases l with
      | nil => exact ⟨.node v .nil .nil, by simp [_bst_insert, hlt]⟩
      | node a b c =>
        exact ⟨(_bst_insert (.node a b c) v).1, by simp [_bst_insert, hlt]⟩
    · intro hle
      have hnlt : ¬ x > v := not_lt.mpr hle
      cases r with
      | nil => exact ⟨.node v .nil .nil, by simp [_bst_insert, hnlt]⟩
      | node a b c =>
        exact ⟨(_bst_insert (.node a b c) v).1, by simp [_bst_insert, hnlt]⟩

theorem claim_C7_witness :
    ∃ t res, bst 1 [1, 0, 2] = .ok t ∧ inspect (.node t) = .ok res ∧
      res.is_bst = true :=
  (claim_C7 1 [1, 0, 2] (by decide) (by decide)).1

/-- C8: the complete-build path (`tree(h, balanced=True)`) on a full flat
sequence with no internal sentinel always yields a tree with
`is_weight_balanced` true and `is_height_balanced` true, the latter computed
as `(height - min_leaf_depth) < 2`. -/
theorem claim_C8 (h : Nat) (values : List Int) (coins : Nat → Bool)
    (hlen : values.length = 2^(h+1) - 1) :
    ∃ t res, tree h true values coins = .ok t ∧ inspect (.node t) = .ok res ∧
      res.is_weight_balanced = true ∧ res.is_height_balanced = true := by
  obtain ⟨hbuild, hperf⟩ := full_build values h hlen
  obtain ⟨res, hres, hwb, hhb, _, _, _⟩ := inspectTree_perfect hperf
  have hne := isPerfect_ne_nil hperf
  exact ⟨_, res, hbuild, by rw [inspect_node hne]; exact hres, hwb, hhb⟩

theorem claim_C8_witness :
    ∃ t res, tree 1 true [4, 5, 6] (fun _ => true) = .ok t ∧
      inspect (.node t) = .ok res ∧
      res.is_weight_balanced = true ∧ res.is_height_balanced = true :=
  claim_C8 1 [4, 5, 6] (fun _ => true) (by decide)

/-- C9: the validator succeeds exactly on clean trees (it touches nothing, as
it returns `Unit`); an error is always one of the two `ValueError` messages;
the invalid-node error occurs exactly when an object that is neither a `Node`
nor the sentinel is reachable, and the null-value error exactly when a `Node`
with a sentinel value is reachable (each assuming the other defect is absent,
since the walk reports whichever it meets first). -/
theorem claim_C9 (root : PyObj) :
    (_validate_tree root = .ok () ↔ cleanObj root = true) ∧
    (∀ e, _validate_tree root = .error e →
      e = "A node cannot have a null value" ∨
      e = "Found an invalid node in the tree") ∧
    (_validate_tree root = .error "Found an invalid node in the tree" →
      hasStrange root = true) ∧
    (_validate_tree root = .error "A node cannot have a null value" →
      hasNullNode root = true) ∧
    (hasStrange root = true → hasNullNode root = false →
      _validate_tree root = .error "Found an invalid node in the tree") ∧
    (hasNullNode root = true → hasStrange root = false →
      _validate_tree root = .error "A node cannot have a null value") := by
  have hfuel : 2 * sumP [root] + [root].length ≤ 2 * sumP [root] + 1 := by
    simp
  have hok := validate_loop_ok_iff (2 * sumP [root] + 1) [root] hfuel
  have herr := validate_loop_error_cases (2 * sumP [root] + 1) [root] hfuel
  have hokr : _validate_tree root = .ok () ↔ cleanObj root = true := by
    rw [_validate_tree, hok]
    simp
  have herrr : ∀ e, _validate_tree root = .error e →
      (e = "A node cannot have a null value" ∧ hasNullNode root = true) ∨
      (e = "Found an invalid node in the tree" ∧ hasStrange root = true) := by
    intro e he
    rw [_validate_tree] at he
    rcases herr e he with ⟨hmsg, p, hp, hx⟩ | ⟨hmsg, p, hp, hx⟩
    · rw [List.mem_singleton] at hp
      subst hp
      exact Or.inl ⟨hmsg, hx⟩
    · rw [List.mem_singleton] at hp
      subst hp
      exact Or.inr ⟨hmsg, hx⟩
  refine ⟨hokr, ?_, ?_, ?_, ?_, ?_⟩
  · intro e he
    rcases herrr e he with ⟨hmsg, _⟩ | ⟨hmsg, _⟩
    · exact Or.inl hmsg
    · exact Or.inr hmsg
  · intro he
    rcases herrr _ he with ⟨hmsg, _⟩ | ⟨_, hx⟩
    · exact absurd hmsg (by decide)
    · exact hx
  · intro he
    rcases herrr _ he with ⟨_, hx⟩ | ⟨hmsg, _⟩
    · exact hx
    · exact absurd hmsg (by decide)
  · intro hs hn
    have hclean : cleanObj root = false := cleanObj_false_of_hasStrange hs
    cases hval : _validate_tree root with
    | ok u =>
      cases u
      rw [hokr.mp hval] at hclean
      exact Bool.noConfusion hclean
    | error e =>
      rcases herrr e hval with ⟨hmsg, hx⟩ | ⟨hmsg, _⟩
      · rw [hx] at hn
        exact Bool.noConfusion hn
      · rw [hmsg]
  · intro hn hs
    have hclean : cleanObj root = false := cleanObj_false_of_hasNullNode hn
    cases hval : _validate_tree root with
    | ok u =>
      cases u
      rw [hokr.mp hval] at hclean
      exact Bool.noConfusion hclean
    | error e =>
      rcases herrr e hval with ⟨hmsg, _⟩ | ⟨hmsg, hx⟩
      · rw [hmsg]
      · rw [hx] at hs
        exact Bool.noConfusion hs

theorem claim_C9_witness :
    _validate_tree .strange = .error "Found an invalid node in the tree" :=
  (claim_C9 .strange).2.2.2.2.1 (by decide) (by decide)

/-- C1 (amended): for every tree accepted by `inspect`, the `is_bst` flag
equals the purely local per-edge check `bstLocal` (left child value not
greater than the parent, right child value not smaller), which is weaker than
recursive BST ordering; any genuine BST does satisfy it. -/
theorem claim_C1 (t : BTree) (ht : t ≠ .nil) :
    ∃ res, inspect (.node t) = .ok res ∧
      res.is_bst = bstLocal t ∧
      (bstSpecB t = true → res.is_bst = true) := by
  obtain ⟨res, hres, _, hb⟩ := inspectTree_basic ht
  refine ⟨res, by rw [inspect_node ht]; exact hres, hb, ?_⟩
  intro hs
  rw [hb]
  exact bstLocal_of_bstSpecB t hs

theorem claim_C1_witness :
    (BTree.node 5 (.node 3 .nil .nil) (.node 8 .nil .nil) ≠ .nil) ∧
    ∃ res, inspect (.node (.node 5 (.node 3 .nil .nil) (.node 8 .nil .nil))) =
        .ok res ∧
      res.is_bst = bstLocal (.node 5 (.node 3 .nil .nil) (.node 8 .nil .nil)) ∧
      (bstSpecB (.node 5 (.node 3 .nil .nil) (.node 8 .nil .nil)) = true →
        res.is_bst = true) :=
  ⟨by decide, claim_C1 _ (by decide)⟩

unseal subtreeAt buildLoop in
/-- Counterexample to C1: on the flat sequence `[5, 3, 8, 1, 6]` every
parent-child edge is locally ordered, so `inspect` reports `is_bst = True`,
yet the built tree is not a recursive BST: `6` sits in the left subtree of
`5`. -/
theorem claim_C1_counterexample :
    ∃ res, inspect (.list [some 5, some 3, some 8, some 1, some 6]) =
        .ok res ∧
      res.is_bst = true ∧
      _build_tree [some 5, some 3, some 8, some 1, some 6] =
        .ok (.node 5 (.node 3 (.node 1 .nil .nil) (.node 6 .nil .nil))
          (.node 8 .nil .nil)) ∧
      bstSpecB (.node 5 (.node 3 (.node 1 .nil .nil) (.node 6 .nil .nil))
        (.node 8 .nil .nil)) = false := by
  have h1 : subtreeAt [some 5, some 3, some 8, some 1, some 6] 0 =
      .node 5 (.node 3 (.node 1 .nil .nil) (.node 6 .nil .nil))
        (.node 8 .nil .nil) := by decide
  have hbuild := @_build_tree_eq_ok [some 5, some 3, some 8, some 1, some 6]
    (by decide) (by decide)
  rw [h1] at hbuild
  obtain ⟨res, hres, _, hb⟩ := @inspectTree_basic
    (.node 5 (.node 3 (.node 1 .nil .nil) (.node 6 .nil .nil))
      (.node 8 .nil .nil)) (by decide)
  refine ⟨res, ?_, by rw [hb]; decide, hbuild, by decide⟩
  rw [inspect, hbuild]
  exact hres

end BinaryTree
